import Mathlib

/-!
Verification development for the discovery engine of the accessibility-checker
repository (URL normalizer, crawl frontier, sitemap harvester).

The TypeScript sources are shallowly embedded:
* `UrlModel`, `parseUrlL`, `serializeL` model the WHATWG `URL` object as the
  repository uses it (scheme://host[:port]/path?query#fragment).  The model
  parser accepts URLs already in the serialized normal form (lower-case scheme
  and host, no percent-encoding, no dot segments); this is the form every URL
  handled by the engine has after its first pass through `new URL`.
* `normalizeUrl`, `isSameHostS`, `isLikelyHtmlPage`, `toAbsoluteUrl` are
  translated from `src/utils/url.ts` (`Option` models a thrown exception).
* `crawlPage`, `crawlStep`, `crawlLoop`, `crawlSite` are translated from the
  crawler (`crawlSite` in the crawler module); the page fetch, the robots
  predicate and the JS number/date primitives are oracle parameters.  The
  visited-membership check and the insertion run with no suspension point
  between them in the source (single-threaded event loop), so a batch is
  modelled as the sequential fold of its tasks.
* `fetchXmlGo`, `parseRetryAfterMs`, `parseSitemapUrlsF` are translated from
  `src/sitemap/fetchSitemap.ts`; the network and the XML parser (`xml2js`) are
  oracle parameters, sleeping is recorded as a trace of waited durations, and
  the unbounded recursion over nested sitemap indexes is given explicit fuel
  (`RunErr.outOfFuel` marks a run that exceeds every finite recursion budget).
-/

namespace AccChecker

/-- Model of a parsed WHATWG URL: scheme, hostname, optional port (empty list
means no port), pathname, decoded query parameters in order, fragment. -/
structure UrlModel where
  scheme : List Char
  hostname : List Char
  port : List Char
  pathname : List Char
  query : List (List Char × List Char)
  fragment : List Char
deriving DecidableEq

/-- Characters accepted in a (lower-case) scheme. -/
def schemeChar (c : Char) : Bool :=
  ('a' ≤ c && c ≤ 'z') || c.isDigit || c = '+' || c = '-' || c = '.'

/-- Characters accepted in a (lower-case) hostname. -/
def hostnameChar (c : Char) : Bool :=
  ('a' ≤ c && c ≤ 'z') || c.isDigit || c = '.' || c = '-'

/-- Characters that terminate the authority component. -/
def hostEndChar (c : Char) : Bool := c = '/' || c = '?' || c = '#'

/-- Characters that terminate the path component. -/
def pathEndChar (c : Char) : Bool := c = '?' || c = '#'

/-- Split the authority into hostname and port digits. -/
def parseAuthority (a : List Char) : Option (List Char × List Char) :=
  let hn := a.takeWhile (fun c => c != ':')
  match a.dropWhile (fun c => c != ':') with
  | [] => if hn.isEmpty || !hn.all hostnameChar then none else some (hn, [])
  | _ :: p =>
    if hn.isEmpty || !hn.all hostnameChar || p.isEmpty || !p.all Char.isDigit then none
    else some (hn, p)

/-- WHATWG default-port elision for the schemes the repository uses. -/
def stripDefaultPort (scheme port : List Char) : List Char :=
  if (scheme = "http".data ∧ port = "80".data) ∨ (scheme = "https".data ∧ port = "443".data)
  then [] else port

/-- Split a list at every occurrence of `sep` (the way `String.split` does). -/
def splitSep (sep : Char) : List Char → List (List Char)
  | [] => [[]]
  | c :: t =>
    if c = sep then [] :: splitSep sep t
    else
      match splitSep sep t with
      | [] => [[c]]
      | h :: r => (c :: h) :: r

/-- One `key=value` piece of a query string, split at the first `=`
(`URLSearchParams` semantics). -/
def parsePair (piece : List Char) : List Char × List Char :=
  (piece.takeWhile (fun c => c != '='),
   match piece.dropWhile (fun c => c != '=') with
   | _ :: v => v
   | [] => [])

/-- Parse a raw query string into ordered key/value pairs, skipping empty
pieces (`URLSearchParams` semantics). -/
def parseParams (s : List Char) : List (List Char × List Char) :=
  (splitSep '&' s).filterMap (fun piece => if piece.isEmpty then none else some (parsePair piece))

/-- Parser for the URL normal form (model of `new URL(raw)`; `none` models the
constructor throwing). -/
def parseUrlL (s : List Char) : Option UrlModel :=
  let scheme := s.takeWhile (fun c => c != ':')
  if scheme.isEmpty || !scheme.all schemeChar then none
  else
    match s.dropWhile (fun c => c != ':') with
    | _ :: '/' :: '/' :: rest =>
      match parseAuthority (rest.takeWhile (fun c => !hostEndChar c)) with
      | none => none
      | some (hn, port0) =>
        let afterHost := rest.dropWhile (fun c => !hostEndChar c)
        let path0 := afterHost.takeWhile (fun c => !pathEndChar c)
        let pathname := if path0.isEmpty then ['/'] else path0
        let u0 : UrlModel := ⟨scheme, hn, stripDefaultPort scheme port0, pathname, [], []⟩
        match afterHost.dropWhile (fun c => !pathEndChar c) with
        | '?' :: t =>
          let frag :=
            match t.dropWhile (fun c => c != '#') with
            | _ :: f => f
            | [] => []
          some { u0 with query := parseParams (t.takeWhile (fun c => c != '#')), fragment := frag }
        | _ :: f => some { u0 with fragment := f }
        | [] => some u0
    | _ => none

/-- The `host` property: hostname plus `:port` when a port is present. -/
def hostStr (u : UrlModel) : List Char :=
  u.hostname ++ (if u.port.isEmpty then [] else ':' :: u.port)

/-- Serialize one query parameter. -/
def paramStr (kv : List Char × List Char) : List Char := kv.1 ++ '=' :: kv.2

/-- Interleave `sep` between the pieces. -/
def joinSep (sep : Char) : List (List Char) → List Char
  | [] => []
  | [p] => p
  | p :: ps => p ++ sep :: joinSep sep ps

/-- Serializer (model of `url.toString()`). -/
def serializeL (u : UrlModel) : List Char :=
  u.scheme ++ (':' :: '/' :: '/' :: hostStr u) ++ u.pathname
    ++ (if u.query.isEmpty then [] else '?' :: joinSep '&' (u.query.map paramStr))
    ++ (if u.fragment.isEmpty then [] else '#' :: u.fragment)

/-- Parse a `String` into the URL model. -/
def parseUrlS (s : String) : Option UrlModel := parseUrlL s.data

/-- Serialize the URL model into a `String`. -/
def serializeS (u : UrlModel) : String := String.mk (serializeL u)

/-- Key-wise comparison used to sort query parameters (model of the
`localeCompare` comparator in `normalizeUrl`). -/
def keyLe (a b : List Char × List Char) : Prop := a.1 ≤ b.1

instance : DecidableRel keyLe := fun a b => inferInstanceAs (Decidable (a.1 ≤ b.1))

instance : IsTotal (List Char × List Char) keyLe := ⟨fun a b => le_total a.1 b.1⟩

instance : IsTrans (List Char × List Char) keyLe := ⟨fun _ _ _ h h2 => le_trans h h2⟩

/-- The trailing-slash removal step of `normalizeUrl`:
`if (url.pathname !== '/' && url.pathname.endsWith('/')) pathname.slice(0, -1)`. -/
def stripTrailingSlash (p : List Char) : List Char :=
  if p ≠ ['/'] ∧ p.getLast? = some '/' then p.dropLast else p

/-- The three field updates `normalizeUrl` performs on the parsed URL:
clear the fragment, strip one trailing slash off a non-root path, and
stable-sort the query parameters by key. -/
def normCore (u : UrlModel) : UrlModel :=
  { u with
    fragment := [],
    pathname := stripTrailingSlash u.pathname,
    query := List.insertionSort keyLe u.query }

/-- Model of `normalizeUrl` from `src/utils/url.ts`; `none` models the
`MalformedURL` exception thrown by `new URL(raw)`. -/
def normalizeUrl (s : String) : Option String :=
  (parseUrlS s).map (fun u => serializeS (normCore u))

/-- The loopback test used by `isSameHost`. -/
def isLocalHost (hn : List Char) : Bool := hn = "localhost".data || hn = "127.0.0.1".data

/-- Host equivalence on parsed URLs, from `isSameHost` in `src/utils/url.ts`
(scheme equality models the `protocol` comparison). -/
def isSameHostU (ua ub : UrlModel) : Bool :=
  if isLocalHost ua.hostname && isLocalHost ub.hostname then true
  else decide (hostStr ua = hostStr ub ∧ ua.scheme = ub.scheme)

/-- Model of `isSameHost(a, b)`; `none` models the exception thrown when either
argument fails to parse. -/
def isSameHostS (a b : String) : Option Bool := do
  let ua ← parseUrlS a
  let ub ← parseUrlS b
  pure (isSameHostU ua ub)

/-- The HTML extension allow-list from `src/utils/url.ts`. -/
def htmlExtensions : List (List Char) :=
  ["", ".html", ".htm", ".xhtml", ".php", ".php5", ".asp", ".aspx", ".jsp", ".cfm"].map
    String.data

/-- The non-HTML extension deny-list from `src/utils/url.ts`. -/
def nonHtmlExtensions : List (List Char) :=
  [".pdf", ".jpg", ".jpeg", ".png", ".gif", ".bmp", ".svg", ".webp", ".ico", ".avif",
   ".mp4", ".webm", ".mov", ".mkv", ".mp3", ".wav", ".flac", ".zip", ".rar", ".7z",
   ".gz", ".tgz", ".tar", ".bz2", ".json", ".xml", ".rss", ".atom", ".csv", ".txt",
   ".doc", ".docx", ".ppt", ".pptx", ".xls", ".xlsx", ".ics", ".ps", ".eps", ".woff",
   ".woff2", ".ttf", ".otf", ".eot", ".avi", ".ts", ".mpeg", ".mpg", ".flv", ".m4v",
   ".apk", ".dmg", ".exe", ".bin", ".iso", ".scss", ".less", ".css"].map String.data

/-- Model of `getExtension(pathname)`: empty for directory-like paths, else the
last dot-suffix of the final path segment. -/
def getExtension (pathname : List Char) : List Char :=
  if pathname.isEmpty || pathname.getLast? = some '/' then []
  else
    let clean := ((splitSep '/' pathname).getLast?).getD []
    if clean.contains '.' then
      '.' :: (clean.reverse.takeWhile (fun c => c != '.')).reverse
    else []

/-- Model of `isLikelyHtmlPage(raw)` from `src/utils/url.ts`. -/
def isLikelyHtmlPage (raw : String) : Bool :=
  match parseUrlS raw with
  | none => false
  | some u =>
    let ext := getExtension (u.pathname.map Char.toLower)
    if htmlExtensions.contains ext then true
    else if nonHtmlExtensions.contains ext then false
    else true

/-- Directory of a pathname (everything up to and including the last slash). -/
def dirOf (p : List Char) : List Char :=
  (p.reverse.dropWhile (fun c => c != '/')).reverse

/-- Model of `toAbsoluteUrl(base, href) = new URL(href, base).toString()`;
relative references are resolved against the base origin (root-relative) or
the base directory, without dot-segment normalization. -/
def toAbsoluteUrl (base href : String) : Option String :=
  match parseUrlS href with
  | some u => some (serializeS u)
  | none =>
    match parseUrlS base with
    | none => none
    | some b =>
      let originStr : List Char := b.scheme ++ (':' :: '/' :: '/' :: hostStr b)
      match href.data with
      | '/' :: _ => (parseUrlL (originStr ++ href.data)).map serializeS
      | _ => (parseUrlL (originStr ++ dirOf b.pathname ++ href.data)).map serializeS


/-! ## Crawl frontier model (crawlSite / crawlPage) -/

/-- The crawl options the model depends on (browser choice, headless flag and
timeout value do not influence the control flow being verified). -/
structure CrawlOpts where
  maxPages : Nat
  maxDepth : Nat
  concurrency : Nat
  respectRobots : Bool
deriving DecidableEq

/-- Crawler state: the Visited Set (insertion order), the Frontier Queue of
`(url, depth)` tasks, and the trace of URLs dispatched to a page fetch. -/
structure CrawlState where
  visited : List String
  queue : List (String × Nat)
  fetched : List String
deriving DecidableEq

/-- Map an effectful step over a list, propagating a thrown exception
(`none`), as the `.map` chains in `crawlPage` do. -/
def normalizeAll : List String → Option (List String)
  | [] => some []
  | s :: t =>
    match normalizeUrl s with
    | none => none
    | some n => (normalizeAll t).map (fun r => n :: r)

/-- The `isSameHost` filter of the candidate pipeline, propagating a thrown
exception (`none`). -/
def filterSameHost (pageUrl : String) : List String → Option (List String)
  | [] => some []
  | s :: t =>
    match isSameHostS pageUrl s with
    | none => none
    | some b => (filterSameHost pageUrl t).map (fun r => if b then s :: r else r)

/-- The link-candidate pipeline of `crawlPage`: resolve each href against the
page URL (dropping unresolvable ones), normalize, keep same-host URLs, keep
likely-HTML URLs.  `none` models an exception thrown inside the pipeline
(which the page-level `catch` swallows before any enqueue happens). -/
def linkCandidates (pageUrl : String) (anchors : List String) : Option (List String) := do
  let normed ← normalizeAll (anchors.filterMap (toAbsoluteUrl pageUrl))
  let sameHost ← filterSameHost pageUrl normed
  pure (sameHost.filter (fun u2 => isLikelyHtmlPage u2))

/-- Model of the inner `crawlPage(browser, url, depth)`.  `robots` is the
`robots.allows` predicate; `fetchL` models `page.goto` plus anchor extraction
(`none` = navigation/extraction error, swallowed by the page-level catch). -/
def crawlPage (opts : CrawlOpts) (robots : String → Bool)
    (fetchL : String → Option (List String)) (st : CrawlState) (url : String) (depth : Nat) :
    CrawlState :=
  if st.visited.contains url then st
  else if !isLikelyHtmlPage url then st
  else if opts.respectRobots && !robots url then st
  else if opts.maxPages ≤ st.visited.length then st
  else
    let st1 : CrawlState := { st with visited := st.visited ++ [url] }
    if opts.maxDepth ≤ depth then st1
    else
      let st2 : CrawlState := { st1 with fetched := st1.fetched ++ [url] }
      match fetchL url with
      | none => st2
      | some anchors =>
        match linkCandidates url anchors with
        | none => st2
        | some candidates =>
          { st2 with
            queue := st2.queue ++
              (candidates.filter (fun next => !st2.visited.contains next)).map
                (fun next => (next, depth + 1)) }

/-- One iteration of the dispatch loop: splice up to `concurrency` tasks off
the queue and run them (the visited check and insertion are suspension-free in
the source, so the batch is the sequential fold of its tasks). -/
def crawlStep (opts : CrawlOpts) (robots : String → Bool)
    (fetchL : String → Option (List String)) (st : CrawlState) : CrawlState :=
  let batch := st.queue.take opts.concurrency
  batch.foldl (fun s t => crawlPage opts robots fetchL s t.1 t.2)
    { st with queue := st.queue.drop opts.concurrency }

/-- The `while (queue.length && visited.size < maxPages)` loop, fuel-indexed. -/
def crawlLoop (opts : CrawlOpts) (robots : String → Bool)
    (fetchL : String → Option (List String)) : Nat → CrawlState → CrawlState
  | 0, st => st
  | fuel + 1, st =>
    if st.queue ≠ [] ∧ st.visited.length < opts.maxPages then
      crawlLoop opts robots fetchL fuel (crawlStep opts robots fetchL st)
    else st

/-- Initial crawler state: the seed task at depth 0. -/
def initState (startUrl : String) : CrawlState := ⟨[], [(startUrl, 0)], []⟩

/-- Model of `crawlSite`: normalize the base URL (a `MalformedURL` there is
fatal, modelled by `none`), run the loop, return the Visited Set in insertion
order. -/
def crawlSite (opts : CrawlOpts) (robots : String → Bool)
    (fetchL : String → Option (List String)) (baseUrl : String) (fuel : Nat) :
    Option (List String) :=
  (normalizeUrl baseUrl).map
    (fun startUrl => (crawlLoop opts robots fetchL fuel (initState startUrl)).visited)

/-! ## Sitemap harvester model (fetchSitemap.ts) -/

/-- Outcome of one `axios.get` attempt: a resolved response (any status,
`validateStatus: () => true`) or a network error. -/
inductive FetchResult where
  | resp (status : Nat) (contentType : String) (retryAfter : String) (body : String)
  | netErr
deriving DecidableEq

/-- Oracles for the JavaScript number/date primitives used by
`parseRetryAfterMs` (`Number`, `Date.parse`, `Date.now`); a rational stands in
for the JS float. -/
structure JsEnv where
  jsNumber : String → Option ℚ
  dateParse : String → Option Int
  now : Int

/-- Model of `parseRetryAfterMs(retryAfter)` (milliseconds, or `none`). -/
def parseRetryAfterMs (env : JsEnv) (retryAfter : String) : Option Int :=
  if retryAfter = "" then none
  else
    match env.jsNumber retryAfter with
    | some q => some (max 0 ⌊q * 1000⌋)
    | none =>
      match env.dateParse retryAfter with
      | some date => some (if date - env.now > 0 then date - env.now else 0)
      | none => none

/-- Whitespace class of the XML-sniff regular expression. -/
def xmlWs (c : Char) : Bool :=
  c = ' ' || c = '\t' || c = '\n' || c = '\r' || c = '\x0b' || c = '\x0c'

/-- Case-insensitive literal match returning the remaining input. -/
def matchCI : List Char → List Char → Option (List Char)
  | [], l => some l
  | _ :: _, [] => none
  | w :: ws, c :: cs => if c.toLower = w then matchCI ws cs else none

/-- Does a `<` at this point start one of the sniffed XML tokens? -/
def checkAfterLt (l : List Char) : Bool :=
  let rest := l.dropWhile xmlWs
  let check (w : String) : Bool :=
    match matchCI w.data rest with
    | some (d :: _) => xmlWs d || d = '>'
    | _ => false
  check "?xml" || check "urlset" || check "sitemapindex"

/-- Model of the body sniff `/<\s*(\?xml|urlset|sitemapindex)[\s>]/i`. -/
def looksXml : List Char → Bool
  | [] => false
  | '<' :: rest => checkAfterLt rest || looksXml rest
  | _ :: rest => looksXml rest

/-- Substring test (model of `String.prototype.includes`). -/
def containsSub (needle : List Char) (hay : List Char) : Bool :=
  match hay with
  | [] => needle.isEmpty
  | _ :: t => needle.isPrefixOf hay || containsSub needle t

/-- The content-type acceptance test of `fetchXml`. -/
def isXmlContentType (ct : String) : Bool :=
  let l := ct.data.map Char.toLower
  containsSub "xml".data l || containsSub "text/plain".data l

/-- The error a `fetchXml` attempt records in `lastError`. -/
inductive SmError where
  | notXml
  | httpStatus (status : Nat)
  | network
  | unknown
deriving DecidableEq

/-- Exponential backoff `Math.min(30000, 1000 * Math.pow(2, attempt))`. -/
def backoffMs (attempt : Nat) : Int := min 30000 (1000 * 2 ^ attempt)

/-- The retry loop of `fetchXml`, over the list of remaining attempt indices,
accumulating the trace of slept durations.  An empty remaining list after the
current attempt means `attempt < maxAttempts` is false, so a caught error is
rethrown instead of slept on. -/
def fetchXmlGo (env : JsEnv) (oracle : Nat → FetchResult) :
    List Nat → Option SmError → List Int → Except SmError String × List Int
  | [], last, waits => (.error (last.getD .unknown), waits)
  | attempt :: restA, last, waits =>
    match oracle attempt with
    | .netErr =>
      if restA.isEmpty then (.error SmError.network, waits)
      else fetchXmlGo env oracle restA (some .network) (waits ++ [backoffMs attempt])
    | .resp status ct ra body =>
      if 200 ≤ status ∧ status < 300 then
        if looksXml body.data || isXmlContentType ct then (.ok body, waits)
        else if restA.isEmpty then (.error SmError.notXml, waits)
        else fetchXmlGo env oracle restA (some .notXml) (waits ++ [backoffMs attempt])
      else if status = 429 ∨ status = 503 then
        fetchXmlGo env oracle restA last
          (waits ++ [(parseRetryAfterMs env ra).getD (backoffMs attempt)])
      else if restA.isEmpty then (.error (SmError.httpStatus status), waits)
      else fetchXmlGo env oracle restA (some (.httpStatus status)) (waits ++ [backoffMs attempt])

/-- Model of `fetchXml(url)` (the url is already applied to the oracle):
result plus the trace of slept durations; `maxAttempts = 4`. -/
def fetchXml (env : JsEnv) (oracle : Nat → FetchResult) : Except SmError String × List Int :=
  fetchXmlGo env oracle [1, 2, 3, 4] none []

/-- Abstraction of the `xml2js` output as `parseSitemapUrls` reads it: the
`urlset.url` items and `sitemapindex.sitemap` items (already coerced to
arrays), each carrying an optional `loc` text. -/
structure ParsedSitemap where
  urlset : Option (List (Option String))
  sitemapindex : Option (List (Option String))

/-- Oracles for the harvester: the network (per URL, per attempt) and the XML
parser (`none` models a `parseStringPromise` rejection). -/
structure SitemapOracles where
  net : String → Nat → FetchResult
  parseXml : String → Option ParsedSitemap

/-- Errors that escape `parseSitemapUrls` in the model: exhausting the
recursion fuel (standing for non-termination of the unguarded recursion), or
a JavaScript exception outside the two guarded try/catch blocks. -/
inductive RunErr where
  | outOfFuel
  | jsThrow
deriving DecidableEq

/-- Insertion-ordered `Set.add`. -/
def addUnique (l : List String) (u : String) : List String :=
  if l.contains u then l else l ++ [u]

/-- Model of `rewriteToBaseOriginIfLocal(absoluteUrl)`. -/
def rewriteToBaseOriginIfLocal (baseU : UrlModel) (abs : String) : String :=
  if isLocalHost baseU.hostname then
    match parseUrlS abs with
    | none => abs
    | some u =>
      serializeS { u with scheme := baseU.scheme, hostname := baseU.hostname, port := baseU.port }
  else abs

/-- The `urlset` loop of `parseSitemapUrls`: resolve each truthy `loc` against
the base (invalid URLs are skipped), rewrite for local bases, normalize, keep
same-host URLs.  `normalizeUrl`/`isSameHost` run outside any try/catch there,
so a thrown `MalformedURL` escapes as `jsThrow`. -/
def processUrlsetItems (baseU : UrlModel) (base : String) (acc : List String) :
    List (Option String) → Except RunErr (List String)
  | [] => .ok acc
  | item :: rest =>
    match item with
    | some loc =>
      if loc = "" then processUrlsetItems baseU base acc rest
      else
        match toAbsoluteUrl base loc with
        | none => processUrlsetItems baseU base acc rest
        | some absolute =>
          match normalizeUrl (rewriteToBaseOriginIfLocal baseU absolute) with
          | none => .error .jsThrow
          | some normalized =>
            match isSameHostS base normalized with
            | none => .error .jsThrow
            | some b =>
              processUrlsetItems baseU base (if b then addUnique acc normalized else acc) rest
    | none => processUrlsetItems baseU base acc rest

/-- The `sitemapindex` loop: resolve each truthy nested `loc` and harvest it
recursively through `recur` (errors from the recursive harvest propagate). -/
def processIndexItems (recur : String → Except RunErr (List String)) (baseU : UrlModel)
    (base : String) (acc : List String) : List (Option String) → Except RunErr (List String)
  | [] => .ok acc
  | item :: rest =>
    match item with
    | some loc =>
      if loc = "" then processIndexItems recur baseU base acc rest
      else
        match toAbsoluteUrl base loc with
        | none => processIndexItems recur baseU base acc rest
        | some absU =>
          match recur (rewriteToBaseOriginIfLocal baseU absU) with
          | .error e => .error e
          | .ok nested => processIndexItems recur baseU base (nested.foldl addUnique acc) rest
    | none => processIndexItems recur baseU base acc rest

/-- Model of `parseSitemapUrls(sitemapUrl, base)`: a failed fetch or malformed
XML yields `[]`; otherwise both document shapes are walked and the recursion
over nested indexes consumes one unit of fuel per level. -/
def parseSitemapUrlsF (O : SitemapOracles) (env : JsEnv) :
    Nat → String → String → Except RunErr (List String)
  | 0, _, _ => .error .outOfFuel
  | fuel + 1, sitemapUrl, base =>
    match (fetchXml env (O.net sitemapUrl)).1 with
    | .error _ => .ok []
    | .ok xml =>
      match O.parseXml xml with
      | none => .ok []
      | some parsed =>
        match parseUrlS base with
        | none => .error .jsThrow
        | some baseU =>
          match
            (match parsed.urlset with
             | some items => processUrlsetItems baseU base [] items
             | none => .ok []) with
          | .error e => .error e
          | .ok acc =>
            processIndexItems (fun u => parseSitemapUrlsF O env fuel u base) baseU base acc
              (parsed.sitemapindex.getD [])


/-- The property C10 claims of crawl output entries: the string is an output
of `normalizeUrl` and is same-host with the (normalized) seed. -/
def CanonProp (startUrl u : String) : Prop :=
  (∃ w, normalizeUrl w = some u) ∧ isSameHostS startUrl u = some true

/-- Invariant: everything stored in the Visited Set or the Frontier Queue
satisfies `CanonProp` for the seed. -/
def CrawlInv (startUrl : String) (st : CrawlState) : Prop :=
  (∀ u ∈ st.visited, CanonProp startUrl u) ∧ (∀ t ∈ st.queue, CanonProp startUrl t.1)

/-- Crawl options used by the concrete counterexample runs. -/
def cexOpts : CrawlOpts := ⟨10, 3, 2, false⟩

/-- Page-fetch oracle whose seed page links to a double-trailing-slash URL. -/
def cexFetchSlash (u : String) : Option (List String) :=
  if u = "http://a.com/" then some ["http://a.com/x//"] else none

/-- Crawl options with `maxDepth = 1` for the two-hop scenario. -/
def twoHopOpts : CrawlOpts := ⟨10, 1, 3, false⟩

/-- Page-fetch oracle with a two-hop chain seed → /b → /c. -/
def twoHopFetch (u : String) : Option (List String) :=
  if u = "http://a.com/" then some ["http://a.com/b"]
  else if u = "http://a.com/b" then some ["http://a.com/c"] else none

/-- The empty crawler state. -/
def emptyState : CrawlState := ⟨[], [], []⟩

/-- Robots oracle that allows everything. -/
def allowAll : String → Bool := fun _ => true

/-- Page-fetch oracle that always fails. -/
def noFetch : String → Option (List String) := fun _ => none

/-! ## List utilities for the round-trip proofs -/

theorem isEmpty_false_of_ne {α : Type} {l : List α} (h : l ≠ []) : l.isEmpty = false := by
  cases l with
  | nil => exact absurd rfl h
  | cons a t => rfl

theorem exists_cons_of_head? {α : Type} {l : List α} {a : α} (h : l.head? = some a) :
    ∃ t, l = a :: t := by
  cases l with
  | nil => simp at h
  | cons b t =>
    simp only [List.head?_cons, Option.some.injEq] at h
    exact ⟨t, by rw [h]⟩

theorem takeWhile_append_all {α : Type} {p : α → Bool} {l₁ l₂ : List α}
    (h : ∀ a ∈ l₁, p a = true) :
    (l₁ ++ l₂).takeWhile p = l₁ ++ l₂.takeWhile p := by
  induction l₁ with
  | nil => rfl
  | cons a t ih =>
    have ha := h a (List.mem_cons_self a t)
    simp [List.takeWhile_cons, ha, ih (fun x hx => h x (List.mem_cons_of_mem a hx))]

theorem dropWhile_append_all {α : Type} {p : α → Bool} {l₁ l₂ : List α}
    (h : ∀ a ∈ l₁, p a = true) :
    (l₁ ++ l₂).dropWhile p = l₂.dropWhile p := by
  induction l₁ with
  | nil => rfl
  | cons a t ih =>
    have ha := h a (List.mem_cons_self a t)
    simp [List.dropWhile_cons, ha, ih (fun x hx => h x (List.mem_cons_of_mem a hx))]

theorem takeWhile_append_stop {α : Type} {p : α → Bool} {l₁ l₂ : List α} {c : α}
    (h : ∀ a ∈ l₁, p a = true) (hc : p c = false) :
    (l₁ ++ c :: l₂).takeWhile p = l₁ := by
  rw [takeWhile_append_all h, List.takeWhile_cons, hc]
  simp

theorem dropWhile_append_stop {α : Type} {p : α → Bool} {l₁ l₂ : List α} {c : α}
    (h : ∀ a ∈ l₁, p a = true) (hc : p c = false) :
    (l₁ ++ c :: l₂).dropWhile p = c :: l₂ := by
  rw [dropWhile_append_all h, List.dropWhile_cons, hc]
  simp

theorem takeWhile_all_eq {α : Type} {p : α → Bool} {l : List α} (h : ∀ a ∈ l, p a = true) :
    l.takeWhile p = l :=
  List.takeWhile_eq_self_iff.mpr h

theorem dropWhile_all_eq {α : Type} {p : α → Bool} {l : List α} (h : ∀ a ∈ l, p a = true) :
    l.dropWhile p = [] :=
  List.dropWhile_eq_nil_iff.mpr h

theorem splitSep_no_sep {sep : Char} : ∀ {l : List Char}, sep ∉ l → splitSep sep l = [l]
  | [], _ => rfl
  | c :: t, h => by
    have hc : ¬ c = sep := fun e => h (e ▸ List.mem_cons_self c t)
    have ht := splitSep_no_sep (fun hm => h (List.mem_cons_of_mem c hm))
    simp [splitSep, hc, ht]

theorem splitSep_append_sep {sep : Char} :
    ∀ {p : List Char}, sep ∉ p → ∀ t, splitSep sep (p ++ sep :: t) = p :: splitSep sep t
  | [], _, t => by simp [splitSep]
  | a :: q, h, t => by
    have ha : ¬ a = sep := fun e => h (e ▸ List.mem_cons_self a q)
    have hq := splitSep_append_sep (fun hm => h (List.mem_cons_of_mem a hm)) t
    show splitSep sep (a :: (q ++ sep :: t)) = (a :: q) :: splitSep sep t
    simp only [splitSep]
    rw [if_neg ha, hq]

theorem splitSep_joinSep {sep : Char} :
    ∀ {ps : List (List Char)}, ps ≠ [] → (∀ p ∈ ps, sep ∉ p) →
      splitSep sep (joinSep sep ps) = ps
  | [], hne, _ => absurd rfl hne
  | [p], _, h => by
    simpa [joinSep] using splitSep_no_sep (h p (List.mem_singleton_self p))
  | p :: q :: r, _, h => by
    have hp : sep ∉ p := h p (List.mem_cons_self p (q :: r))
    have ih : splitSep sep (joinSep sep (q :: r)) = q :: r :=
      splitSep_joinSep (by simp) (fun x hx => h x (List.mem_cons_of_mem p hx))
    simp only [joinSep, splitSep_append_sep hp, ih]

theorem parsePair_mk {k v : List Char} (hk : '=' ∉ k) : parsePair (k ++ '=' :: v) = (k, v) := by
  have hall : ∀ c ∈ k, (c != '=') = true := fun c hc => by
    simp only [bne_iff_ne, ne_eq]
    exact fun e => hk (e ▸ hc)
  unfold parsePair
  rw [takeWhile_append_stop (c := '=') hall (by decide),
    dropWhile_append_stop (c := '=') hall (by decide)]

theorem parseParams_join :
    ∀ {q : List (List Char × List Char)}, q ≠ [] →
      (∀ kv ∈ q, ('&' ∉ kv.1 ∧ '=' ∉ kv.1) ∧ '&' ∉ kv.2) →
      parseParams (joinSep '&' (q.map paramStr)) = q := by
  intro q hne h
  have hpieces : ∀ p ∈ q.map paramStr, '&' ∉ p := by
    intro p hp
    obtain ⟨kv, hkv, rfl⟩ := List.mem_map.mp hp
    intro hmem
    rcases List.mem_append.mp hmem with h1 | h2
    · exact (h kv hkv).1.1 h1
    · rcases List.mem_cons.mp h2 with h3 | h4
      · exact absurd h3 (by decide)
      · exact (h kv hkv).2 h4
  have hsplit := splitSep_joinSep (by simpa using hne) hpieces
  unfold parseParams
  rw [hsplit]
  clear hsplit hpieces hne
  induction q with
  | nil => rfl
  | cons kv rest ih =>
    have hkv := h kv (List.mem_cons_self kv rest)
    have hrest := ih (fun x hx => h x (List.mem_cons_of_mem kv hx))
    have hne2 : (paramStr kv).isEmpty = false := isEmpty_false_of_ne (by simp [paramStr])
    have hpp : parsePair (paramStr kv) = kv := by
      show parsePair (kv.1 ++ '=' :: kv.2) = kv
      rw [parsePair_mk hkv.1.2]
    simp only [List.map_cons, List.filterMap_cons, hne2, Bool.false_eq_true, if_false, hrest, hpp]

/-! ## URL well-formedness and the parse/serialize round trip -/

/-- Invariants every URL produced by `parseUrlL` satisfies; they are exactly
what makes serialization reversible. -/
structure UrlWF (u : UrlModel) : Prop where
  scheme_ne : u.scheme ≠ []
  scheme_ok : ∀ c ∈ u.scheme, schemeChar c = true
  host_ne : u.hostname ≠ []
  host_ok : ∀ c ∈ u.hostname, hostnameChar c = true
  port_digits : ∀ c ∈ u.port, c.isDigit = true
  port_default : stripDefaultPort u.scheme u.port = u.port
  path_head : u.pathname.head? = some '/'
  path_ok : ∀ c ∈ u.pathname, pathEndChar c = false
  query_ok : ∀ kv ∈ u.query,
    (∀ c ∈ kv.1, c ≠ '&' ∧ c ≠ '=' ∧ c ≠ '#') ∧ (∀ c ∈ kv.2, c ≠ '&' ∧ c ≠ '#')

theorem schemeChar_ne_colon {c : Char} (h : schemeChar c = true) : (c != ':') = true := by
  simp only [bne_iff_ne, ne_eq]
  rintro rfl
  exact absurd h (by decide)

theorem hostnameChar_ne_colon {c : Char} (h : hostnameChar c = true) : (c != ':') = true := by
  simp only [bne_iff_ne, ne_eq]
  rintro rfl
  exact absurd h (by decide)

theorem hostnameChar_not_hostEnd {c : Char} (h : hostnameChar c = true) :
    hostEndChar c = false := by
  by_contra hc
  rw [Bool.not_eq_false] at hc
  simp only [hostEndChar, Bool.or_eq_true, decide_eq_true_eq] at hc
  rcases hc with (rfl | rfl) | rfl <;> exact absurd h (by decide)

theorem digit_not_hostEnd {c : Char} (h : c.isDigit = true) : hostEndChar c = false := by
  by_contra hc
  rw [Bool.not_eq_false] at hc
  simp only [hostEndChar, Bool.or_eq_true, decide_eq_true_eq] at hc
  rcases hc with (rfl | rfl) | rfl <;> exact absurd h (by decide)

theorem stripDefaultPort_idem (s p : List Char) :
    stripDefaultPort s (stripDefaultPort s p) = stripDefaultPort s p := by
  unfold stripDefaultPort
  by_cases h : (s = "http".data ∧ p = "80".data) ∨ (s = "https".data ∧ p = "443".data)
  · rw [if_pos h]
    rcases h with ⟨rfl, _⟩ | ⟨rfl, _⟩ <;> simp
  · rw [if_neg h, if_neg h]

theorem mem_joinSep {sep : Char} {c : Char} :
    ∀ {ps : List (List Char)}, c ∈ joinSep sep ps → c = sep ∨ ∃ p ∈ ps, c ∈ p
  | [], h => absurd h (List.not_mem_nil c)
  | [p], h => Or.inr ⟨p, List.mem_singleton_self p, by simpa [joinSep] using h⟩
  | p :: q :: r, h => by
    simp only [joinSep] at h
    rcases List.mem_append.mp h with h1 | h2
    · exact Or.inr ⟨p, List.mem_cons_self p (q :: r), h1⟩
    · rcases List.mem_cons.mp h2 with rfl | h3
      · exact Or.inl rfl
      · rcases mem_joinSep h3 with h4 | ⟨x, hx, hcx⟩
        · exact Or.inl h4
        · exact Or.inr ⟨x, List.mem_cons_of_mem p hx, hcx⟩

theorem parseAuthority_hostStr {u : UrlModel} (h : UrlWF u) :
    parseAuthority (hostStr u) = some (u.hostname, u.port) := by
  have hh : ∀ c ∈ u.hostname, (c != ':') = true :=
    fun c hc => hostnameChar_ne_colon (h.host_ok c hc)
  have hne : u.hostname.isEmpty = false := isEmpty_false_of_ne h.host_ne
  have hall : u.hostname.all hostnameChar = true := List.all_eq_true.mpr h.host_ok
  rcases hp : u.port with _ | ⟨a, t⟩
  · have hhs : hostStr u = u.hostname := by simp [hostStr, hp]
    rw [hhs]
    unfold parseAuthority
    rw [takeWhile_all_eq hh, dropWhile_all_eq hh]
    simp [hne, hall]
  · have hhs : hostStr u = u.hostname ++ ':' :: a :: t := by simp [hostStr, hp]
    have hdig : (a :: t).all Char.isDigit = true :=
      List.all_eq_true.mpr (fun c hc => h.port_digits c (hp ▸ hc))
    rw [hhs]
    unfold parseAuthority
    rw [takeWhile_append_stop (c := ':') hh (by decide),
      dropWhile_append_stop (c := ':') hh (by decide)]
    simp [hne, hall, hdig]

theorem parse_serializeL {u : UrlModel} (h : UrlWF u) : parseUrlL (serializeL u) = some u := by
  obtain ⟨p', hpath⟩ := exists_cons_of_head? h.path_head
  have hsch : ∀ c ∈ u.scheme, (c != ':') = true :=
    fun c hc => schemeChar_ne_colon (h.scheme_ok c hc)
  have hschE : u.scheme.isEmpty = false := isEmpty_false_of_ne h.scheme_ne
  have hschA : u.scheme.all schemeChar = true := List.all_eq_true.mpr h.scheme_ok
  have hhost : ∀ c ∈ hostStr u, (!hostEndChar c) = true := by
    intro c hc
    rw [Bool.not_eq_true']
    unfold hostStr at hc
    rcases List.mem_append.mp hc with h1 | h2
    · exact hostnameChar_not_hostEnd (h.host_ok c h1)
    · rcases hpp : u.port with _ | ⟨a, t⟩
      · rw [hpp] at h2
        simp at h2
      · rw [hpp] at h2
        simp only [List.isEmpty_cons, Bool.false_eq_true, if_false] at h2
        rcases List.mem_cons.mp h2 with rfl | h3
        · decide
        · exact digit_not_hostEnd (h.port_digits c (hpp ▸ h3))
  have hpathall : ∀ c ∈ u.pathname, (!pathEndChar c) = true := by
    intro c hc
    rw [Bool.not_eq_true']
    exact h.path_ok c hc
  have hauth := parseAuthority_hostStr h
  rw [hpath] at hpathall
  rcases hq : u.query with _ | ⟨kv0, qs0⟩
  · rcases hf : u.fragment with _ | ⟨f0, fs0⟩
    · -- no query, no fragment
      have hser : serializeL u =
          u.scheme ++ ':' :: ('/' :: '/' :: (hostStr u ++ '/' :: p')) := by
        simp [serializeL, hq, hf, hpath, List.append_assoc]
      rw [hser]
      unfold parseUrlL
      rw [takeWhile_append_stop (c := ':') hsch (by decide),
        dropWhile_append_stop (c := ':') hsch (by decide)]
      simp only [hschE, hschA, Bool.not_true, Bool.or_self, Bool.false_eq_true, if_false]
      rw [takeWhile_append_stop (c := '/') hhost (by decide),
        dropWhile_append_stop (c := '/') hhost (by decide), hauth]
      simp only [h.port_default]
      rw [takeWhile_all_eq hpathall, dropWhile_all_eq hpathall]
      simp only [List.isEmpty_cons, Bool.false_eq_true, if_false]
      rw [← hpath, ← hq, ← hf]
    · -- no query, fragment present
      have hser : serializeL u =
          u.scheme ++ ':' :: ('/' :: '/' :: (hostStr u ++ '/' :: (p' ++ '#' :: (f0 :: fs0)))) := by
        simp [serializeL, hq, hf, hpath, List.append_assoc]
      have hpall2 : ∀ c ∈ ('/' : Char) :: p', (!pathEndChar c) = true := hpathall
      rw [hser]
      unfold parseUrlL
      rw [takeWhile_append_stop (c := ':') hsch (by decide),
        dropWhile_append_stop (c := ':') hsch (by decide)]
      simp only [hschE, hschA, Bool.not_true, Bool.or_self, Bool.false_eq_true, if_false]
      rw [takeWhile_append_stop (c := '/') hhost (by decide),
        dropWhile_append_stop (c := '/') hhost (by decide), hauth]
      simp only [h.port_default]
      rw [← List.cons_append]
      rw [takeWhile_append_stop (c := '#') hpall2 (by decide),
        dropWhile_append_stop (c := '#') hpall2 (by decide)]
      simp only [List.isEmpty_cons, Bool.false_eq_true, if_false]
      rw [← hpath, ← hq, ← hf]
      rfl
  · -- query present
    have hqchars : ∀ c ∈ joinSep '&' (u.query.map paramStr), (c != '#') = true := by
      intro c hc
      simp only [bne_iff_ne, ne_eq]
      rcases mem_joinSep hc with rfl | ⟨p, hp, hcp⟩
      · decide
      · obtain ⟨kv, hkv, rfl⟩ := List.mem_map.mp hp
        simp only [paramStr] at hcp
        rcases List.mem_append.mp hcp with h1 | h2
        · exact ((h.query_ok kv hkv).1 c h1).2.2
        · rcases List.mem_cons.mp h2 with rfl | h3
          · decide
          · exact ((h.query_ok kv hkv).2 c h3).2
    have hqq : parseParams (joinSep '&' (u.query.map paramStr)) = u.query :=
      parseParams_join (by rw [hq]; simp)
        (fun kv hkv =>
          ⟨⟨fun hm => ((h.query_ok kv hkv).1 '&' hm).1 rfl,
            fun hm => ((h.query_ok kv hkv).1 '=' hm).2.1 rfl⟩,
           fun hm => ((h.query_ok kv hkv).2 '&' hm).1 rfl⟩)
    have hqne : u.query.isEmpty = false := isEmpty_false_of_ne (by rw [hq]; simp)
    have hpall2 : ∀ c ∈ ('/' : Char) :: p', (!pathEndChar c) = true := hpathall
    rcases hf : u.fragment with _ | ⟨f0, fs0⟩
    · -- query present, no fragment
      have hser : serializeL u =
          u.scheme ++ ':' :: ('/' :: '/' :: (hostStr u ++ '/' ::
            (p' ++ '?' :: joinSep '&' (u.query.map paramStr)))) := by
        simp [serializeL, hq, hf, hpath, hqne, List.append_assoc]
      rw [hser]
      unfold parseUrlL
      rw [takeWhile_append_stop (c := ':') hsch (by decide),
        dropWhile_append_stop (c := ':') hsch (by decide)]
      simp only [hschE, hschA, Bool.not_true, Bool.or_self, Bool.false_eq_true, if_false]
      rw [takeWhile_append_stop (c := '/') hhost (by decide),
        dropWhile_append_stop (c := '/') hhost (by decide), hauth]
      simp only [h.port_default]
      rw [← List.cons_append]
      rw [takeWhile_append_stop (c := '?') hpall2 (by decide),
        dropWhile_append_stop (c := '?') hpall2 (by decide)]
      simp only [List.isEmpty_cons, Bool.false_eq_true, if_false]
      rw [takeWhile_all_eq hqchars, dropWhile_all_eq hqchars, hqq]
      have hu : u = ⟨u.scheme, u.hostname, u.port, '/' :: p', u.query, []⟩ := by
        rw [← hpath, ← hf]
      conv_rhs => rw [hu]
    · -- query present, fragment present
      have hser : serializeL u =
          u.scheme ++ ':' :: ('/' :: '/' :: (hostStr u ++ '/' ::
            (p' ++ '?' :: (joinSep '&' (u.query.map paramStr) ++ '#' :: (f0 :: fs0))))) := by
        simp [serializeL, hq, hf, hpath, hqne, List.append_assoc]
      rw [hser]
      unfold parseUrlL
      rw [takeWhile_append_stop (c := ':') hsch (by decide),
        dropWhile_append_stop (c := ':') hsch (by decide)]
      simp only [hschE, hschA, Bool.not_true, Bool.or_self, Bool.false_eq_true, if_false]
      rw [takeWhile_append_stop (c := '/') hhost (by decide),
        dropWhile_append_stop (c := '/') hhost (by decide), hauth]
      simp only [h.port_default]
      rw [← List.cons_append]
      rw [takeWhile_append_stop (c := '?') hpall2 (by decide),
        dropWhile_append_stop (c := '?') hpall2 (by decide)]
      simp only [List.isEmpty_cons, Bool.false_eq_true, if_false]
      rw [takeWhile_append_stop (c := '#') hqchars (by decide),
        dropWhile_append_stop (c := '#') hqchars (by decide), hqq]
      rw [← hpath, ← hf]

theorem parse_serializeS {u : UrlModel} (h : UrlWF u) : parseUrlS (serializeS u) = some u :=
  parse_serializeL h

theorem mem_splitSep {sep : Char} :
    ∀ {l : List Char} {piece : List Char}, piece ∈ splitSep sep l →
      ∀ c ∈ piece, c ∈ l ∧ c ≠ sep := by
  intro l
  induction l with
  | nil =>
    intro piece hp c hc
    simp only [splitSep, List.mem_singleton] at hp
    subst hp
    exact absurd hc (List.not_mem_nil c)
  | cons a t ih =>
    intro piece hp c hc
    simp only [splitSep] at hp
    by_cases ha : a = sep
    · rw [if_pos ha] at hp
      rcases List.mem_cons.mp hp with rfl | h2
      · exact absurd hc (List.not_mem_nil c)
      · obtain ⟨h3, h4⟩ := ih h2 c hc
        exact ⟨List.mem_cons_of_mem a h3, h4⟩
    · rw [if_neg ha] at hp
      cases hsp : splitSep sep t with
      | nil =>
        rw [hsp] at hp
        simp only [List.mem_singleton] at hp
        subst hp
        rcases List.mem_singleton.mp hc with rfl
        exact ⟨List.mem_cons_self c t, ha⟩
      | cons hd r =>
        rw [hsp] at hp
        rcases List.mem_cons.mp hp with rfl | h2
        · rcases List.mem_cons.mp hc with rfl | h3
          · exact ⟨List.mem_cons_self c t, ha⟩
          · obtain ⟨h4, h5⟩ := ih (hsp ▸ List.mem_cons_self hd r) c h3
            exact ⟨List.mem_cons_of_mem a h4, h5⟩
        · obtain ⟨h4, h5⟩ := ih (hsp ▸ List.mem_cons_of_mem hd h2) c hc
          exact ⟨List.mem_cons_of_mem a h4, h5⟩

theorem parseParams_wf {l : List Char} {kv : List Char × List Char}
    (hkv : kv ∈ parseParams l) :
    (∀ c ∈ kv.1, c ∈ l ∧ c ≠ '&' ∧ c ≠ '=') ∧ (∀ c ∈ kv.2, c ∈ l ∧ c ≠ '&') := by
  unfold parseParams at hkv
  obtain ⟨piece, hpc, hsome⟩ := List.mem_filterMap.mp hkv
  by_cases hpe : piece.isEmpty
  · rw [if_pos hpe] at hsome; exact absurd hsome (by simp)
  · rw [if_neg hpe] at hsome
    have hkv2 : kv = parsePair piece := by
      injection hsome with h
      exact h.symm
    subst hkv2
    constructor
    · intro c hc
      have hc2 : c ∈ piece.takeWhile (fun c => c != '=') := hc
      have hmem : c ∈ piece := (List.takeWhile_sublist _).subset hc2
      have hne : (c != '=') = true := List.mem_takeWhile_imp (p := fun c => c != '=') hc2
      obtain ⟨h1, h2⟩ := mem_splitSep hpc c hmem
      exact ⟨h1, h2, by simpa [bne_iff_ne] using hne⟩
    · intro c hc
      have hc2 : c ∈ (match piece.dropWhile (fun c => c != '=') with
        | _ :: v => v
        | [] => ([] : List Char)) := hc
      have hmem : c ∈ piece := by
        cases hdw : piece.dropWhile (fun c => c != '=') with
        | nil => rw [hdw] at hc2; exact absurd hc2 (List.not_mem_nil c)
        | cons d v =>
          rw [hdw] at hc2
          exact (List.dropWhile_sublist _).subset (hdw ▸ List.mem_cons_of_mem d hc2)
      obtain ⟨h1, h2⟩ := mem_splitSep hpc c hmem
      exact ⟨h1, h2⟩

theorem parseAuthority_wf {a hn p : List Char} (h : parseAuthority a = some (hn, p)) :
    hn ≠ [] ∧ (∀ c ∈ hn, hostnameChar c = true) ∧ (∀ c ∈ p, c.isDigit = true) := by
  unfold parseAuthority at h
  simp only [] at h
  split at h
  · by_cases hc : ((a.takeWhile (fun c => c != ':')).isEmpty
        || !(a.takeWhile (fun c => c != ':')).all hostnameChar) = true
    · rw [if_pos hc] at h
      exact absurd h (by simp)
    · rw [if_neg hc] at h
      simp only [Bool.or_eq_true, not_or, Bool.not_eq_true, Bool.not_eq_true',
        Bool.not_eq_false] at hc
      obtain ⟨he, hall⟩ := hc
      injection h with h2
      injection h2 with h3 h4
      subst h3
      subst h4
      refine ⟨fun hnil => by rw [hnil] at he; simp at he,
        List.all_eq_true.mp hall, ?_⟩
      intro c hc2
      exact absurd hc2 (List.not_mem_nil c)
  · rename_i hd ptl heq
    by_cases hc : ((a.takeWhile (fun c => c != ':')).isEmpty
        || !(a.takeWhile (fun c => c != ':')).all hostnameChar
        || ptl.isEmpty || !ptl.all Char.isDigit) = true
    · rw [if_pos hc] at h
      exact absurd h (by simp)
    · rw [if_neg hc] at h
      simp only [Bool.or_eq_true, not_or, Bool.not_eq_true, Bool.not_eq_true',
        Bool.not_eq_false] at hc
      obtain ⟨⟨⟨he, hall⟩, _⟩, hdig⟩ := hc
      injection h with h2
      injection h2 with h3 h4
      subst h3
      subst h4
      exact ⟨fun hnil => by rw [hnil] at he; simp at he,
        List.all_eq_true.mp hall, List.all_eq_true.mp hdig⟩

theorem stripDefaultPort_cases (s p : List Char) :
    stripDefaultPort s p = [] ∨ stripDefaultPort s p = p := by
  unfold stripDefaultPort
  split_ifs with h
  · exact Or.inl rfl
  · exact Or.inr rfl

theorem parse_wf : ∀ {s : List Char} {u : UrlModel}, parseUrlL s = some u → UrlWF u := by
  intro s u h
  unfold parseUrlL at h
  simp only [] at h
  by_cases hcond : ((s.takeWhile (fun c => c != ':')).isEmpty
      || !(s.takeWhile (fun c => c != ':')).all schemeChar) = true
  · rw [if_pos hcond] at h
    exact absurd h (by simp)
  rw [if_neg hcond] at h
  simp only [Bool.or_eq_true, not_or, Bool.not_eq_true, Bool.not_eq_true',
    Bool.not_eq_false] at hcond
  obtain ⟨hse, hsa⟩ := hcond
  have hsne : s.takeWhile (fun c => c != ':') ≠ [] := by
    intro hnil
    rw [hnil] at hse
    simp at hse
  have hsok := List.all_eq_true.mp hsa
  split at h
  case _ hd rest heq =>
    split at h
    case _ => exact absurd h (by simp)
    case _ hn port0 hauth =>
      have ⟨hhne, hhok, hpdig⟩ := parseAuthority_wf hauth
      have hpd : ∀ c ∈ stripDefaultPort (s.takeWhile (fun c => c != ':')) port0,
          c.isDigit = true := by
        rcases stripDefaultPort_cases (s.takeWhile (fun c => c != ':')) port0 with he | he
        · rw [he]; intro c hc; exact absurd hc (List.not_mem_nil c)
        · rw [he]; exact hpdig
      have hpdef : stripDefaultPort (s.takeWhile (fun c => c != ':'))
          (stripDefaultPort (s.takeWhile (fun c => c != ':')) port0) =
          stripDefaultPort (s.takeWhile (fun c => c != ':')) port0 :=
        stripDefaultPort_idem _ _
      -- facts about the path component
      have hpath0 : ∀ c ∈ (rest.dropWhile (fun c => !hostEndChar c)).takeWhile
          (fun c => !pathEndChar c), pathEndChar c = false := by
        intro c hc
        have := List.mem_takeWhile_imp hc
        rwa [Bool.not_eq_true'] at this
      have hhead : (if ((rest.dropWhile (fun c => !hostEndChar c)).takeWhile
          (fun c => !pathEndChar c)).isEmpty then ['/']
          else (rest.dropWhile (fun c => !hostEndChar c)).takeWhile
            (fun c => !pathEndChar c)).head? = some '/' := by
        split_ifs with hemp
        · rfl
        · cases hah : rest.dropWhile (fun c => !hostEndChar c) with
          | nil => rw [hah] at hemp; simp at hemp
          | cons x xs =>
            have hx := List.head?_dropWhile_not (fun c => !hostEndChar c) rest
            rw [hah] at hx
            simp only [List.head?_cons, Bool.not_eq_false'] at hx
            simp only [hostEndChar, Bool.or_eq_true, decide_eq_true_eq] at hx
            rw [hah] at hemp
            rcases hx with (rfl | rfl) | rfl
            · rw [List.takeWhile_cons, if_pos (by decide)]
              rfl
            · rw [List.takeWhile_cons, if_neg (by decide)] at hemp
              simp at hemp
            · rw [List.takeWhile_cons, if_neg (by decide)] at hemp
              simp at hemp
      have hpok : ∀ c ∈ (if ((rest.dropWhile (fun c => !hostEndChar c)).takeWhile
          (fun c => !pathEndChar c)).isEmpty then ['/']
          else (rest.dropWhile (fun c => !hostEndChar c)).takeWhile
            (fun c => !pathEndChar c)), pathEndChar c = false := by
        split_ifs with hemp
        · intro c hc
          rcases List.mem_singleton.mp hc with rfl
          decide
        · exact hpath0
      split at h
      case _ t =>
        injection h with h2
        subst h2
        refine ⟨hsne, hsok, hhne, hhok, hpd, hpdef, hhead, hpok, ?_⟩
        intro kv hkv
        obtain ⟨hk1, hk2⟩ := parseParams_wf hkv
        constructor
        · intro c hc
          obtain ⟨hmem, hne1, hne2⟩ := hk1 c hc
          have hne3 : (c != '#') = true :=
            List.mem_takeWhile_imp (p := fun c => c != '#') hmem
          exact ⟨hne1, hne2, by simpa [bne_iff_ne] using hne3⟩
        · intro c hc
          obtain ⟨hmem, hne1⟩ := hk2 c hc
          have hne3 : (c != '#') = true :=
            List.mem_takeWhile_imp (p := fun c => c != '#') hmem
          exact ⟨hne1, by simpa [bne_iff_ne] using hne3⟩
      case _ hd2 f =>
        injection h with h2
        subst h2
        refine ⟨hsne, hsok, hhne, hhok, hpd, hpdef, hhead, hpok, ?_⟩
        intro kv hkv
        exact absurd hkv (List.not_mem_nil kv)
      case _ =>
        injection h with h2
        subst h2
        refine ⟨hsne, hsok, hhne, hhok, hpd, hpdef, hhead, hpok, ?_⟩
        intro kv hkv
        exact absurd hkv (List.not_mem_nil kv)
  case _ => exact absurd h (by simp)

theorem stripTrailingSlash_head {p : List Char} (h : p.head? = some '/') :
    (stripTrailingSlash p).head? = some '/' := by
  unfold stripTrailingSlash
  split_ifs with hc
  · obtain ⟨p', rfl⟩ := exists_cons_of_head? h
    rcases p' with _ | ⟨a, t⟩
    · exact absurd rfl hc.1
    · simp [List.dropLast]
  · exact h

theorem mem_stripTrailingSlash {p : List Char} {c : Char} (h : c ∈ stripTrailingSlash p) :
    c ∈ p := by
  unfold stripTrailingSlash at h
  split_ifs at h with hc
  · exact (List.dropLast_sublist p).subset h
  · exact h

theorem normCore_wf {u : UrlModel} (h : UrlWF u) : UrlWF (normCore u) := by
  refine ⟨h.scheme_ne, h.scheme_ok, h.host_ne, h.host_ok, h.port_digits, h.port_default,
    stripTrailingSlash_head h.path_head, ?_, ?_⟩
  · intro c hc
    exact h.path_ok c (mem_stripTrailingSlash hc)
  · intro kv hkv
    exact h.query_ok kv ((List.mem_insertionSort keyLe).mp hkv)

theorem stripTrailingSlash_idem {p : List Char} (h : ¬ (['/', '/'] <:+ p)) :
    stripTrailingSlash (stripTrailingSlash p) = stripTrailingSlash p := by
  by_cases h1 : p ≠ ['/'] ∧ p.getLast? = some '/'
  · have hs : stripTrailingSlash p = p.dropLast := by
      unfold stripTrailingSlash
      rw [if_pos h1]
    obtain ⟨q, rfl⟩ := List.getLast?_eq_some_iff.mp h1.2
    have hq : q.getLast? ≠ some '/' := by
      intro hg
      obtain ⟨r, rfl⟩ := List.getLast?_eq_some_iff.mp hg
      exact h ⟨r, by simp⟩
    rw [hs, List.dropLast_concat]
    unfold stripTrailingSlash
    rw [if_neg]
    rintro ⟨_, hlast⟩
    exact hq hlast
  · have hs : stripTrailingSlash p = p := by
      unfold stripTrailingSlash
      rw [if_neg h1]
    rw [hs, hs]

theorem normCore_idem {u : UrlModel} (h : ¬ (['/', '/'] <:+ u.pathname)) :
    normCore (normCore u) = normCore u := by
  unfold normCore
  rw [List.Sorted.insertionSort_eq (List.sorted_insertionSort keyLe u.query),
    stripTrailingSlash_idem h]

theorem normalizeUrl_eq_some {s : String} {u : UrlModel} (h : parseUrlS s = some u) :
    normalizeUrl s = some (serializeS (normCore u)) := by
  unfold normalizeUrl
  rw [show parseUrlS s = some u from h]
  rfl

theorem filter_orderedInsert_key (k : List Char) (a : List Char × List Char) :
    ∀ m : List (List Char × List Char),
      (List.orderedInsert keyLe a m).filter (fun kv => kv.1 == k) =
        if a.1 == k then a :: m.filter (fun kv => kv.1 == k)
        else m.filter (fun kv => kv.1 == k) := by
  intro m
  induction m with
  | nil =>
    rw [List.orderedInsert_nil, List.filter_cons, List.filter_nil]
  | cons b m ih =>
    by_cases hab : keyLe a b
    · rw [List.orderedInsert_of_le (r := keyLe) m hab, List.filter_cons, List.filter_cons]
    · have hlt : b.1 < a.1 := lt_of_not_le (fun hle => hab hle)
      simp only [List.orderedInsert, if_neg hab, List.filter_cons, ih]
      by_cases hak : (a.1 == k) = true
      · have hbk : (b.1 == k) = false := by
          rw [beq_eq_false_iff_ne, ne_eq]
          intro hbk2
          rw [beq_iff_eq] at hak
          rw [hbk2, ← hak] at hlt
          exact lt_irrefl _ hlt
        simp [hak, hbk]
      · rw [Bool.not_eq_true] at hak
        simp [hak]

theorem insertionSort_filter_key (k : List Char) :
    ∀ l : List (List Char × List Char),
      (List.insertionSort keyLe l).filter (fun kv => kv.1 == k) =
        l.filter (fun kv => kv.1 == k) := by
  intro l
  induction l with
  | nil => rfl
  | cons a l ih =>
    rw [List.insertionSort, filter_orderedInsert_key, ih, List.filter_cons]

theorem takeWhile_hostStr {u : UrlModel} (h : UrlWF u) :
    (hostStr u).takeWhile (fun c => c != ':') = u.hostname := by
  have hh : ∀ c ∈ u.hostname, (c != ':') = true :=
    fun c hc => hostnameChar_ne_colon (h.host_ok c hc)
  rcases hp : u.port with _ | ⟨a, t⟩
  · have hhs : hostStr u = u.hostname := by simp [hostStr, hp]
    rw [hhs, takeWhile_all_eq hh]
  · have hhs : hostStr u = u.hostname ++ ':' :: a :: t := by simp [hostStr, hp]
    rw [hhs, takeWhile_append_stop (c := ':') hh (by decide)]

theorem hostname_eq_of_hostStr {u v : UrlModel} (hu : UrlWF u) (hv : UrlWF v)
    (h : hostStr u = hostStr v) : u.hostname = v.hostname := by
  rw [← takeWhile_hostStr hu, ← takeWhile_hostStr hv, h]

theorem isSameHostU_true_iff {ua ub : UrlModel} :
    isSameHostU ua ub = true ↔
      (isLocalHost ua.hostname = true ∧ isLocalHost ub.hostname = true) ∨
      (hostStr ua = hostStr ub ∧ ua.scheme = ub.scheme) := by
  unfold isSameHostU
  by_cases hc : (isLocalHost ua.hostname && isLocalHost ub.hostname) = true
  · rw [if_pos hc]
    rw [Bool.and_eq_true] at hc
    simp [hc]
  · rw [if_neg hc]
    rw [decide_eq_true_eq]
    constructor
    · exact Or.inr
    · rintro (⟨h1, h2⟩ | h3)
      · exact absurd (by simp [h1, h2] : (isLocalHost ua.hostname &&
          isLocalHost ub.hostname) = true) hc
      · exact h3

theorem isSameHostS_refl {s : String} {u : UrlModel} (h : parseUrlS s = some u) :
    isSameHostS s s = some true := by
  have ht : isSameHostU u u = true := isSameHostU_true_iff.mpr (Or.inr ⟨rfl, rfl⟩)
  unfold isSameHostS
  rw [h]
  simp [ht]

theorem isSameHostS_some {a b : String} {r : Bool} (h : isSameHostS a b = some r) :
    ∃ ua ub, parseUrlS a = some ua ∧ parseUrlS b = some ub ∧ isSameHostU ua ub = r := by
  unfold isSameHostS at h
  cases hpa : parseUrlS a with
  | none => rw [hpa] at h; exact absurd h (by simp)
  | some ua =>
    rw [hpa] at h
    cases hpb : parseUrlS b with
    | none => rw [hpb] at h; exact absurd h (by simp)
    | some ub =>
      rw [hpb] at h
      refine ⟨ua, ub, rfl, rfl, ?_⟩
      simpa using h

theorem isSameHostS_trans {a b c : String}
    (hab : isSameHostS a b = some true) (hbc : isSameHostS b c = some true) :
    isSameHostS a c = some true := by
  obtain ⟨ua, ub, hpa, hpb, h1⟩ := isSameHostS_some hab
  obtain ⟨ub2, uc, hpb2, hpc, h2⟩ := isSameHostS_some hbc
  rw [hpb] at hpb2
  injection hpb2 with hpb3
  subst hpb3
  have wa : UrlWF ua := parse_wf hpa
  have wb : UrlWF ub := parse_wf hpb
  have wc : UrlWF uc := parse_wf hpc
  have hgoal : isSameHostU ua uc = true := by
    rcases isSameHostU_true_iff.mp h1 with ⟨ha, hb⟩ | ⟨hh1, hs1⟩ <;>
      rcases isSameHostU_true_iff.mp h2 with ⟨hb2, hc2⟩ | ⟨hh2, hs2⟩
    · exact isSameHostU_true_iff.mpr (Or.inl ⟨ha, hc2⟩)
    · exact isSameHostU_true_iff.mpr
        (Or.inl ⟨ha, by rw [← hostname_eq_of_hostStr wb wc hh2]; exact hb⟩)
    · exact isSameHostU_true_iff.mpr
        (Or.inl ⟨by rw [hostname_eq_of_hostStr wa wb hh1]; exact hb2, hc2⟩)
    · exact isSameHostU_true_iff.mpr (Or.inr ⟨hh1.trans hh2, hs1.trans hs2⟩)
  unfold isSameHostS
  rw [hpa, hpc]
  simp [hgoal]

/-! ## Crawl invariants -/

theorem mem_normalizeAll :
    ∀ {l r : List String}, normalizeAll l = some r → ∀ u ∈ r, ∃ w, normalizeUrl w = some u := by
  intro l
  induction l with
  | nil =>
    intro r h u hu
    simp only [normalizeAll, Option.some.injEq] at h
    subst h
    exact absurd hu (List.not_mem_nil u)
  | cons s t ih =>
    intro r h u hu
    simp only [normalizeAll] at h
    cases hn : normalizeUrl s with
    | none => rw [hn] at h; exact absurd h (by simp)
    | some n =>
      rw [hn] at h
      cases ht : normalizeAll t with
      | none => rw [ht] at h; exact absurd h (by simp)
      | some r2 =>
        rw [ht] at h
        simp only [Option.map_some', Option.some.injEq] at h
        subst h
        rcases List.mem_cons.mp hu with rfl | h2
        · exact ⟨s, hn⟩
        · exact ih ht u h2

theorem mem_filterSameHost {pageUrl : String} :
    ∀ {l r : List String}, filterSameHost pageUrl l = some r →
      ∀ u ∈ r, isSameHostS pageUrl u = some true := by
  intro l
  induction l with
  | nil =>
    intro r h u hu
    simp only [filterSameHost, Option.some.injEq] at h
    subst h
    exact absurd hu (List.not_mem_nil u)
  | cons s t ih =>
    intro r h u hu
    simp only [filterSameHost] at h
    cases hs : isSameHostS pageUrl s with
    | none => rw [hs] at h; exact absurd h (by simp)
    | some b =>
      rw [hs] at h
      cases ht : filterSameHost pageUrl t with
      | none => rw [ht] at h; exact absurd h (by simp)
      | some r2 =>
        rw [ht] at h
        simp only [Option.map_some', Option.some.injEq] at h
        subst h
        cases b with
        | true =>
          simp only [if_true] at hu
          rcases List.mem_cons.mp hu with rfl | h2
          · exact hs
          · exact ih ht u h2
        | false =>
          simp only [Bool.false_eq_true, if_false] at hu
          exact ih ht u hu

theorem mem_of_filterSameHost {pageUrl : String} :
    ∀ {l r : List String}, filterSameHost pageUrl l = some r → ∀ u ∈ r, u ∈ l := by
  intro l
  induction l with
  | nil =>
    intro r h u hu
    simp only [filterSameHost, Option.some.injEq] at h
    subst h
    exact absurd hu (List.not_mem_nil u)
  | cons s t ih =>
    intro r h u hu
    simp only [filterSameHost] at h
    cases hs : isSameHostS pageUrl s with
    | none => rw [hs] at h; exact absurd h (by simp)
    | some b =>
      rw [hs] at h
      cases ht : filterSameHost pageUrl t with
      | none => rw [ht] at h; exact absurd h (by simp)
      | some r2 =>
        rw [ht] at h
        simp only [Option.map_some', Option.some.injEq] at h
        subst h
        cases b with
        | true =>
          simp only [if_true] at hu
          rcases List.mem_cons.mp hu with rfl | h2
          · exact List.mem_cons_self u t
          · exact List.mem_cons_of_mem s (ih ht u h2)
        | false =>
          simp only [Bool.false_eq_true, if_false] at hu
          exact List.mem_cons_of_mem s (ih ht u hu)

theorem mem_linkCandidates {pageUrl : String} {anchors r : List String}
    (h : linkCandidates pageUrl anchors = some r) :
    ∀ u ∈ r, (∃ w, normalizeUrl w = some u) ∧ isSameHostS pageUrl u = some true := by
  intro u hu
  unfold linkCandidates at h
  cases hn : normalizeAll (anchors.filterMap (toAbsoluteUrl pageUrl)) with
  | none => rw [hn] at h; exact absurd h (by simp)
  | some normed =>
    rw [hn] at h
    simp only [Option.bind_eq_bind, Option.some_bind] at h
    cases hf : filterSameHost pageUrl normed with
    | none => rw [hf] at h; exact absurd h (by simp)
    | some sameHost =>
      rw [hf] at h
      simp only [Option.bind_eq_bind, Option.some_bind, Option.pure_def,
        Option.some.injEq] at h
      subst h
      have hmem : u ∈ sameHost := (List.filter_sublist _).subset hu
      have h1 := mem_filterSameHost hf u hmem
      exact ⟨mem_normalizeAll hn u (mem_of_filterSameHost hf u hmem), h1⟩

/-- The three possible effects of one `crawlPage` call: skip (no state change),
mark-visited-only (depth exhausted), or mark + fetch + enqueue the candidate
links at `depth + 1`. -/
theorem crawlPage_cases (opts : CrawlOpts) (robots : String → Bool)
    (fetchL : String → Option (List String)) (st : CrawlState) (url : String) (depth : Nat) :
    crawlPage opts robots fetchL st url depth = st ∨
    (st.visited.contains url = false ∧ st.visited.length < opts.maxPages ∧
      ((opts.maxDepth ≤ depth ∧
        crawlPage opts robots fetchL st url depth = { st with visited := st.visited ++ [url] }) ∨
       (depth < opts.maxDepth ∧
        ∃ newq : List (String × Nat),
          (∀ e ∈ newq, e.2 = depth + 1 ∧ (∃ w, normalizeUrl w = some e.1) ∧
            isSameHostS url e.1 = some true) ∧
          crawlPage opts robots fetchL st url depth =
            { visited := st.visited ++ [url], queue := st.queue ++ newq,
              fetched := st.fetched ++ [url] }))) := by
  unfold crawlPage
  by_cases h1 : st.visited.contains url = true
  · rw [if_pos h1]
    exact Or.inl rfl
  rw [Bool.not_eq_true] at h1
  rw [if_neg (by rw [h1]; simp)]
  by_cases h2 : (!isLikelyHtmlPage url) = true
  · rw [if_pos h2]
    exact Or.inl rfl
  rw [if_neg h2]
  by_cases h3 : (opts.respectRobots && !robots url) = true
  · rw [if_pos h3]
    exact Or.inl rfl
  rw [if_neg h3]
  by_cases h4 : opts.maxPages ≤ st.visited.length
  · rw [if_pos h4]
    exact Or.inl rfl
  rw [if_neg h4]
  have h4b : st.visited.length < opts.maxPages := lt_of_not_le h4
  by_cases h5 : opts.maxDepth ≤ depth
  · rw [if_pos h5]
    exact Or.inr ⟨h1, h4b, Or.inl ⟨h5, rfl⟩⟩
  rw [if_neg h5]
  have h5b : depth < opts.maxDepth := lt_of_not_le h5
  refine Or.inr ⟨h1, h4b, Or.inr ⟨h5b, ?_⟩⟩
  cases hf : fetchL url with
  | none =>
    refine ⟨[], by simp, ?_⟩
    simp [hf]
  | some anchors =>
    cases hlc : linkCandidates url anchors with
    | none =>
      refine ⟨[], by simp, ?_⟩
      simp [hf, hlc]
    | some candidates =>
      refine ⟨(candidates.filter
          (fun next => !(st.visited ++ [url]).contains next)).map (fun next => (next, depth + 1)),
        ?_, ?_⟩
      · intro e he
        obtain ⟨next, hnext, rfl⟩ := List.mem_map.mp he
        have hc2 : next ∈ candidates := (List.filter_sublist _).subset hnext
        obtain ⟨hw, hsh⟩ := mem_linkCandidates hlc next hc2
        exact ⟨rfl, hw, hsh⟩
      · simp only [hf, hlc]

theorem crawlPage_canon {startUrl : String} {opts : CrawlOpts} {robots : String → Bool}
    {fetchL : String → Option (List String)} {st : CrawlState} {url : String} {depth : Nat}
    (hs : CrawlInv startUrl st) (hu : CanonProp startUrl url) :
    CrawlInv startUrl (crawlPage opts robots fetchL st url depth) := by
  rcases crawlPage_cases opts robots fetchL st url depth with
    he | ⟨_, _, ⟨_, he⟩ | ⟨_, newq, hq, he⟩⟩
  · rw [he]; exact hs
  · rw [he]
    refine ⟨?_, hs.2⟩
    intro v hv
    rcases List.mem_append.mp hv with h1 | h2
    · exact hs.1 v h1
    · rcases List.mem_singleton.mp h2 with rfl
      exact hu
  · rw [he]
    constructor
    · intro v hv
      rcases List.mem_append.mp hv with h1 | h2
      · exact hs.1 v h1
      · rcases List.mem_singleton.mp h2 with rfl
        exact hu
    · intro t ht
      rcases List.mem_append.mp ht with h1 | h2
      · exact hs.2 t h1
      · obtain ⟨_, hw, hsh⟩ := hq t h2
        exact ⟨hw, isSameHostS_trans hu.2 hsh⟩

theorem foldl_crawlPage_canon {startUrl : String} {opts : CrawlOpts} {robots : String → Bool}
    {fetchL : String → Option (List String)} :
    ∀ (batch : List (String × Nat)) (st : CrawlState), CrawlInv startUrl st →
      (∀ t ∈ batch, CanonProp startUrl t.1) →
      CrawlInv startUrl
        (batch.foldl (fun s t => crawlPage opts robots fetchL s t.1 t.2) st) := by
  intro batch
  induction batch with
  | nil => exact fun st hs _ => hs
  | cons t batch ih =>
    intro st hs hb
    exact ih _ (crawlPage_canon hs (hb t (List.mem_cons_self t batch)))
      (fun x hx => hb x (List.mem_cons_of_mem t hx))

theorem crawlStep_canon {startUrl : String} {opts : CrawlOpts} {robots : String → Bool}
    {fetchL : String → Option (List String)} {st : CrawlState}
    (hs : CrawlInv startUrl st) :
    CrawlInv startUrl (crawlStep opts robots fetchL st) := by
  unfold crawlStep
  refine foldl_crawlPage_canon _ _ ⟨hs.1, ?_⟩ ?_
  · intro t ht
    exact hs.2 t (List.drop_subset _ _ ht)
  · intro t ht
    exact hs.2 t (List.take_subset _ _ ht)

theorem crawlLoop_canon {startUrl : String} {opts : CrawlOpts} {robots : String → Bool}
    {fetchL : String → Option (List String)} :
    ∀ (fuel : Nat) (st : CrawlState), CrawlInv startUrl st →
      CrawlInv startUrl (crawlLoop opts robots fetchL fuel st) := by
  intro fuel
  induction fuel with
  | zero => exact fun st hs => hs
  | succ n ih =>
    intro st hs
    unfold crawlLoop
    split_ifs with hc
    · exact ih _ (crawlStep_canon hs)
    · exact hs

theorem normalizeUrl_parse {s t : String} (h : normalizeUrl s = some t) :
    ∃ v, parseUrlS t = some v := by
  unfold normalizeUrl at h
  cases hp : parseUrlS s with
  | none => rw [hp] at h; exact absurd h (by simp)
  | some u =>
    rw [hp] at h
    simp only [Option.map_some', Option.some.injEq] at h
    subst h
    exact ⟨normCore u, parse_serializeS (normCore_wf (parse_wf hp))⟩

theorem foldl_crawlPage_pres {opts : CrawlOpts} {robots : String → Bool}
    {fetchL : String → Option (List String)} {P : CrawlState → Prop}
    (hstep : ∀ st url depth, P st → P (crawlPage opts robots fetchL st url depth)) :
    ∀ (batch : List (String × Nat)) (st : CrawlState), P st →
      P (batch.foldl (fun s t => crawlPage opts robots fetchL s t.1 t.2) st) := by
  intro batch
  induction batch with
  | nil => exact fun st h => h
  | cons t b ih => exact fun st h => ih _ (hstep st t.1 t.2 h)

theorem crawlLoop_pres {opts : CrawlOpts} {robots : String → Bool}
    {fetchL : String → Option (List String)} {P : CrawlState → Prop}
    (hstep : ∀ st url depth, P st → P (crawlPage opts robots fetchL st url depth))
    (hq : ∀ st q, P st → P { st with queue := q }) :
    ∀ (fuel : Nat) (st : CrawlState), P st → P (crawlLoop opts robots fetchL fuel st) := by
  intro fuel
  induction fuel with
  | zero => exact fun st h => h
  | succ n ih =>
    intro st h
    unfold crawlLoop
    split_ifs with hc
    · exact ih _ (foldl_crawlPage_pres hstep _ _ (hq st _ h))
    · exact h

/-- Sitemap JavaScript primitive oracle for the concrete harvester runs. -/
def cycEnv : JsEnv := ⟨fun _ => none, fun _ => none, 0⟩

/-- Network and XML oracles realizing a self-referencing sitemap index: every
fetch of the sitemap URL succeeds with an XML body whose single nested `loc`
is the sitemap URL itself. -/
def cycO : SitemapOracles :=
  ⟨fun _ _ => .resp 200 "text/xml" "" "<sitemapindex>",
   fun _ => some ⟨none, some [some "http://a.com/sitemap.xml"]⟩⟩

/-- JavaScript primitives where `Number("2") = 2` (as in a real runtime). -/
def retryEnv : JsEnv := ⟨fun s => if s = "2" then some 2 else none, fun _ => none, 0⟩

/-- Response oracle: every attempt yields 503 with `Retry-After: 2`. -/
def o503ra2 : Nat → FetchResult := fun _ => .resp 503 "" "2" ""

/-- Response oracle: every attempt fails with a network error. -/
def netErrOracle : Nat → FetchResult := fun _ => .netErr

/-- Network/XML oracles where every fetch fails with a network error. -/
def netO : SitemapOracles := ⟨fun _ => netErrOracle, fun _ => none⟩

/-! ## Claim theorems -/

theorem fetchXmlGo_waits_length (env : JsEnv) (oracle : Nat → FetchResult) :
    ∀ (attempts : List Nat) (last : Option SmError) (waits : List Int),
      (fetchXmlGo env oracle attempts last waits).2.length ≤
        waits.length + attempts.length := by
  intro attempts
  induction attempts with
  | nil =>
    intro last waits
    simp [fetchXmlGo]
  | cons a rest ih =>
    intro last waits
    unfold fetchXmlGo
    cases ho : oracle a with
    | netErr =>
      simp only []
      split_ifs with h1
      · simp
      · refine le_trans (ih _ _) ?_
        simp only [List.length_append, List.length_cons, List.length_nil]
        omega
    | resp status ct ra body =>
      simp only []
      split_ifs with h1 h2 h3 h4 h5 <;>
        first
          | (simp only []; omega)
          | (refine le_trans (ih _ _) ?_
             simp only [List.length_append, List.length_cons, List.length_nil]
             omega)

theorem fetchXmlGo_waits_extend (env : JsEnv) (oracle : Nat → FetchResult) :
    ∀ (attempts : List Nat) (last : Option SmError) (waits : List Int),
      ∃ t, (fetchXmlGo env oracle attempts last waits).2 = waits ++ t := by
  intro attempts
  induction attempts with
  | nil =>
    intro last waits
    exact ⟨[], by simp [fetchXmlGo]⟩
  | cons a rest ih =>
    intro last waits
    unfold fetchXmlGo
    cases ho : oracle a with
    | netErr =>
      simp only []
      split_ifs with h1
      · exact ⟨[], by simp⟩
      · obtain ⟨t, ht⟩ := ih (some .network) (waits ++ [backoffMs a])
        exact ⟨backoffMs a :: t, by rw [ht]; simp⟩
    | resp status ct ra body =>
      simp only []
      split_ifs with h1 h2 h3 h4 h5
      · exact ⟨[], by simp⟩
      · exact ⟨[], by simp⟩
      · obtain ⟨t, ht⟩ := ih (some .notXml) (waits ++ [backoffMs a])
        exact ⟨backoffMs a :: t, by rw [ht]; simp⟩
      · obtain ⟨t, ht⟩ := ih last
          (waits ++ [(parseRetryAfterMs env ra).getD (backoffMs a)])
        exact ⟨(parseRetryAfterMs env ra).getD (backoffMs a) :: t, by rw [ht]; simp⟩
      · exact ⟨[], by simp⟩
      · obtain ⟨t, ht⟩ := ih (some (.httpStatus status)) (waits ++ [backoffMs a])
        exact ⟨backoffMs a :: t, by rw [ht]; simp⟩

theorem fetchXmlGo_cons_retryable (env : JsEnv) (oracle : Nat → FetchResult)
    (a : Nat) (rest : List Nat) (last : Option SmError) (waits : List Int)
    (status : Nat) (ct ra body : String)
    (ho : oracle a = .resp status ct ra body) (hns : ¬(200 ≤ status ∧ status < 300))
    (hs : status = 429 ∨ status = 503) :
    fetchXmlGo env oracle (a :: rest) last waits =
      fetchXmlGo env oracle rest last
        (waits ++ [(parseRetryAfterMs env ra).getD (backoffMs a)]) := by
  unfold fetchXmlGo
  simp only [ho]
  rw [if_neg hns, if_pos hs]
  conv_lhs => unfold fetchXmlGo

/-- C1: for every configuration with `maxPages = N`, every robots oracle and
every page-fetch behaviour (any link fan-out), a single `crawlPage` call
preserves the bound `|Visited| ≤ N` (so the bound holds at every point during
a run), and the list `crawlSite` returns has length at most `N`. -/
theorem crawlSite_visited_le_maxPages (opts : CrawlOpts) (robots : String → Bool)
    (fetchL : String → Option (List String)) :
    (∀ (st : CrawlState) (url : String) (depth : Nat),
      st.visited.length ≤ opts.maxPages →
      (crawlPage opts robots fetchL st url depth).visited.length ≤ opts.maxPages) ∧
    (∀ (baseUrl : String) (fuel : Nat) (vs : List String),
      crawlSite opts robots fetchL baseUrl fuel = some vs →
      vs.length ≤ opts.maxPages) := by
  have hpage : ∀ (st : CrawlState) (url : String) (depth : Nat),
      st.visited.length ≤ opts.maxPages →
      (crawlPage opts robots fetchL st url depth).visited.length ≤ opts.maxPages := by
    intro st url depth hlen
    rcases crawlPage_cases opts robots fetchL st url depth with
      he | ⟨_, hlt, ⟨_, he⟩ | ⟨_, newq, _, he⟩⟩
    · rw [he]; exact hlen
    · rw [he]
      simp only [List.length_append, List.length_cons, List.length_nil]
      omega
    · rw [he]
      simp only [List.length_append, List.length_cons, List.length_nil]
      omega
  refine ⟨hpage, ?_⟩
  intro baseUrl fuel vs h
  unfold crawlSite at h
  cases hn : normalizeUrl baseUrl with
  | none => rw [hn] at h; exact absurd h (by simp)
  | some startUrl =>
    rw [hn] at h
    simp only [Option.map_some', Option.some.injEq] at h
    subst h
    exact crawlLoop_pres (P := fun st => st.visited.length ≤ opts.maxPages)
      hpage (fun st q hl => hl) fuel (initState startUrl) (Nat.zero_le _)

/-- C1 witness: a concrete run returning one URL under `maxPages = 10`. -/
theorem crawlSite_visited_le_maxPages_witness :
    (["http://a.com/"] : List String).length ≤ cexOpts.maxPages :=
  (crawlSite_visited_le_maxPages cexOpts allowAll noFetch).2 "http://a.com/" 5
    ["http://a.com/"] (by decide)

/-- C2: in any run of the crawl loop (any options, robots oracle, page-fetch
behaviour — including pages full of duplicate links — and any fuel), the trace
of URLs dispatched to a page fetch has no duplicates: each unique canonical
URL is fetched at most once, because the visited check and the insertion are
one atomic step in `crawlPage` (no suspension point separates them). -/
theorem crawl_fetched_nodup (opts : CrawlOpts) (robots : String → Bool)
    (fetchL : String → Option (List String)) (startUrl : String) (fuel : Nat) :
    ((crawlLoop opts robots fetchL fuel (initState startUrl)).fetched).Nodup := by
  have hstep : ∀ (st : CrawlState) (url : String) (depth : Nat),
      (st.fetched.Nodup ∧ ∀ u ∈ st.fetched, u ∈ st.visited) →
      ((crawlPage opts robots fetchL st url depth).fetched.Nodup ∧
        ∀ u ∈ (crawlPage opts robots fetchL st url depth).fetched,
          u ∈ (crawlPage opts robots fetchL st url depth).visited) := by
    intro st url depth hpair
    obtain ⟨hnd, hsub⟩ := hpair
    rcases crawlPage_cases opts robots fetchL st url depth with
      he | ⟨hnv, _, ⟨_, he⟩ | ⟨_, newq, _, he⟩⟩
    · rw [he]; exact ⟨hnd, hsub⟩
    · rw [he]
      exact ⟨hnd, fun u hu => List.mem_append.mpr (Or.inl (hsub u hu))⟩
    · rw [he]
      have hnm : url ∉ st.visited := by
        intro hm
        have hc : st.visited.contains url = true := List.elem_iff.mpr hm
        rw [hnv] at hc
        exact absurd hc (by simp)
      constructor
      · rw [List.nodup_append]
        refine ⟨hnd, List.nodup_singleton url, ?_⟩
        intro u hu hu2
        rcases List.mem_singleton.mp hu2 with rfl
        exact hnm (hsub u hu)
      · intro u hu
        rcases List.mem_append.mp hu with h1 | h2
        · exact List.mem_append.mpr (Or.inl (hsub u h1))
        · exact List.mem_append.mpr (Or.inr h2)
  exact (crawlLoop_pres
    (P := fun st => st.fetched.Nodup ∧ ∀ u ∈ st.fetched, u ∈ st.visited)
    hstep (fun st q h => h) fuel (initState startUrl)
    ⟨List.nodup_nil, fun u hu => absurd hu (List.not_mem_nil u)⟩).1

/-- C3 counterexample: the seed task for a PDF URL (not yet visited, fails
`classifyLikelyHtml`) is skipped and the URL is NOT marked visited — the crawl
output is empty instead of containing the URL as the claim demands. -/
theorem crawl_skip_marks_visited_counterexample :
    crawlSite cexOpts allowAll noFetch "http://a.com/doc.pdf" 5 = some [] ∧
    isLikelyHtmlPage "http://a.com/doc.pdf" = false ∧
    normalizeUrl "http://a.com/doc.pdf" = some "http://a.com/doc.pdf" :=
  ⟨by decide, by decide, by decide⟩

/-- C3 (amended): for every crawl task whose URL is not yet visited, if the
URL fails `classifyLikelyHtml`, or `respectRobots` is set and robots disallow
it, or the visited budget is already exhausted, then `crawlSite` skips the
task WITHOUT marking it visited: the crawler state is unchanged, so the URL
appears neither in the Visited Set nor in the crawl output. -/
theorem crawlPage_skip_unvisited (opts : CrawlOpts) (robots : String → Bool)
    (fetchL : String → Option (List String)) (st : CrawlState) (url : String) (depth : Nat)
    (hnv : st.visited.contains url = false)
    (hskip : isLikelyHtmlPage url = false ∨
      (opts.respectRobots = true ∧ robots url = false) ∨
      opts.maxPages ≤ st.visited.length) :
    crawlPage opts robots fetchL st url depth = st := by
  unfold crawlPage
  rw [if_neg (by rw [hnv]; simp)]
  by_cases h2 : (!isLikelyHtmlPage url) = true
  · rw [if_pos h2]
  · rw [if_neg h2]
    by_cases h3 : (opts.respectRobots && !robots url) = true
    · rw [if_pos h3]
    · rw [if_neg h3]
      rw [if_pos ?budget]
      case budget =>
        rcases hskip with h | hb | h
        · exact absurd (by rw [h]; rfl) h2
        · exact absurd (by rw [hb.1, hb.2]; rfl) h3
        · exact h

/-- C3 witness: a skipped PDF seed task leaves the empty state unchanged. -/
theorem crawlPage_skip_unvisited_witness :
    crawlPage cexOpts allowAll noFetch emptyState "http://a.com/doc.pdf" 0 = emptyState :=
  crawlPage_skip_unvisited cexOpts allowAll noFetch emptyState "http://a.com/doc.pdf" 0
    (by decide) (Or.inl (by decide))

/-- C9: a page fetch happens only for tasks with `depth < maxDepth` (when
`maxDepth ≤ depth` the fetch trace is unchanged), every task enqueued by a
`crawlPage` call at depth `d` carries depth `d + 1`, and in the concrete
two-hop chain seed → /b → /c with `maxDepth = 1` only the seed is fetched and
/c is never visited. -/
theorem crawl_depth_guard (opts : CrawlOpts) (robots : String → Bool)
    (fetchL : String → Option (List String)) :
    (∀ (st : CrawlState) (url : String) (depth : Nat), opts.maxDepth ≤ depth →
      (crawlPage opts robots fetchL st url depth).fetched = st.fetched) ∧
    (∀ (st : CrawlState) (url : String) (depth : Nat) (e : String × Nat),
      e ∈ (crawlPage opts robots fetchL st url depth).queue →
      e ∈ st.queue ∨ e.2 = depth + 1) ∧
    (crawlLoop twoHopOpts allowAll twoHopFetch 6 (initState "http://a.com/")).fetched =
      ["http://a.com/"] ∧
    "http://a.com/c" ∉
      (crawlLoop twoHopOpts allowAll twoHopFetch 6 (initState "http://a.com/")).visited := by
  refine ⟨?_, ?_, by decide, by decide⟩
  · intro st url depth hd
    rcases crawlPage_cases opts robots fetchL st url depth with
      he | ⟨_, _, ⟨_, he⟩ | ⟨hlt, _, _, he⟩⟩
    · rw [he]
    · rw [he]
    · exact absurd hd (not_le_of_lt hlt)
  · intro st url depth e he
    rcases crawlPage_cases opts robots fetchL st url depth with
      heq | ⟨_, _, ⟨_, heq⟩ | ⟨_, newq, hq, heq⟩⟩
    · rw [heq] at he; exact Or.inl he
    · rw [heq] at he; exact Or.inl he
    · rw [heq] at he
      rcases List.mem_append.mp he with h1 | h2
      · exact Or.inl h1
      · exact Or.inr (hq e h2).1

/-- C9 witness: a depth-1 task under `maxDepth = 1` adds nothing to the fetch
trace. -/
theorem crawl_depth_guard_witness :
    (crawlPage twoHopOpts allowAll twoHopFetch emptyState "http://a.com/b" 1).fetched =
      emptyState.fetched :=
  (crawl_depth_guard twoHopOpts allowAll twoHopFetch).1 emptyState "http://a.com/b" 1
    (by decide)

/-- C10 counterexample: a crawled page links to `http://a.com/x//`; the crawl
output then contains `http://a.com/x/`, which is not a fixed point of
`normalizeUrl` (it normalizes to `http://a.com/x`). -/
theorem crawlSite_output_not_fixed_point :
    crawlSite cexOpts allowAll cexFetchSlash "http://a.com/" 5 =
      some ["http://a.com/", "http://a.com/x/"] ∧
    normalizeUrl "http://a.com/x/" = some "http://a.com/x" ∧
    normalizeUrl "http://a.com/x/" ≠ some "http://a.com/x/" :=
  ⟨by decide, by decide, by decide⟩

/-- C10 (amended): every string in the list returned by `crawlSite` is an
output of `normalizeUrl` (canonical in that sense, though not necessarily a
fixed point) and is same-host with the normalized seed, for every crawl
configuration and every behaviour of the external page-fetch capability. -/
theorem crawlSite_output_canonical (opts : CrawlOpts) (robots : String → Bool)
    (fetchL : String → Option (List String)) (baseUrl : String) (fuel : Nat)
    (vs : List String) (h : crawlSite opts robots fetchL baseUrl fuel = some vs) :
    ∃ startUrl, normalizeUrl baseUrl = some startUrl ∧
      ∀ u ∈ vs, (∃ w, normalizeUrl w = some u) ∧ isSameHostS startUrl u = some true := by
  unfold crawlSite at h
  cases hn : normalizeUrl baseUrl with
  | none => rw [hn] at h; exact absurd h (by simp)
  | some startUrl =>
    rw [hn] at h
    simp only [Option.map_some', Option.some.injEq] at h
    subst h
    refine ⟨startUrl, rfl, ?_⟩
    obtain ⟨v, hv⟩ := normalizeUrl_parse hn
    have hseed : CanonProp startUrl startUrl := ⟨⟨baseUrl, hn⟩, isSameHostS_refl hv⟩
    have hinv : CrawlInv startUrl (initState startUrl) := by
      constructor
      · intro u hu
        exact absurd hu (List.not_mem_nil u)
      · intro t ht
        rcases List.mem_singleton.mp ht with rfl
        exact hseed
    exact fun u hu => (crawlLoop_canon fuel _ hinv).1 u hu

/-- C10 witness: the canonical-output property instantiated on the concrete
double-slash run. -/
theorem crawlSite_output_canonical_witness :
    ∃ startUrl, normalizeUrl "http://a.com/" = some startUrl ∧
      ∀ u ∈ (["http://a.com/", "http://a.com/x/"] : List String),
        (∃ w, normalizeUrl w = some u) ∧ isSameHostS startUrl u = some true :=
  crawlSite_output_canonical cexOpts allowAll cexFetchSlash "http://a.com/" 5
    ["http://a.com/", "http://a.com/x/"] (by decide)

/-- C5 counterexample: `canonicalize` is not idempotent — a path ending in a
double slash loses only one slash per application. -/
theorem normalizeUrl_not_idempotent :
    normalizeUrl "http://a.com/x//" = some "http://a.com/x/" ∧
    normalizeUrl "http://a.com/x/" = some "http://a.com/x" ∧
    some ("http://a.com/x" : String) ≠ some ("http://a.com/x/" : String) :=
  ⟨by decide, by decide, by decide⟩

/-- C5 (amended): `canonicalize` is idempotent on every parseable URL whose
parsed path does not end in a double slash — exactly the restriction the
counterexample forces, since one application removes only one trailing
slash. -/
theorem normalizeUrl_idem (s : String) (u : UrlModel) (hp : parseUrlS s = some u)
    (hs : ¬ (['/', '/'] <:+ u.pathname)) :
    (normalizeUrl s).bind normalizeUrl = normalizeUrl s := by
  have h1 : normalizeUrl s = some (serializeS (normCore u)) := normalizeUrl_eq_some hp
  have h2 : parseUrlS (serializeS (normCore u)) = some (normCore u) :=
    parse_serializeS (normCore_wf (parse_wf hp))
  rw [h1]
  show normalizeUrl (serializeS (normCore u)) = some (serializeS (normCore u))
  rw [normalizeUrl_eq_some h2, normCore_idem hs]

/-- C5 witness: idempotence instantiated on a concrete URL. -/
theorem normalizeUrl_idem_witness :
    (normalizeUrl "http://a.com/x").bind normalizeUrl = normalizeUrl "http://a.com/x" :=
  normalizeUrl_idem "http://a.com/x" ((parseUrlS "http://a.com/x").get (by decide))
    (Option.some_get (by decide)).symm (by decide)

/-- C6: `canonicalize` fails exactly on unparseable input, and on parseable
input its output parses back to a URL with no fragment, with a single
trailing slash removed unless the path is the root, and with the query
parameters stably sorted by key: the output query is a permutation of the
input query, sorted under `keyLe`, and for every key the subsequence with
that key is preserved in order. -/
theorem normalizeUrl_spec :
    (∀ s : String, parseUrlS s = none → normalizeUrl s = none) ∧
    (∀ (s : String) (u : UrlModel), parseUrlS s = some u →
      ∃ v : UrlModel, normalizeUrl s = some (serializeS v) ∧
        parseUrlS (serializeS v) = some v ∧
        v.fragment = [] ∧
        v.pathname = (if u.pathname ≠ ['/'] ∧ u.pathname.getLast? = some '/'
          then u.pathname.dropLast else u.pathname) ∧
        v.query.Perm u.query ∧
        List.Sorted keyLe v.query ∧
        (∀ k : List Char, v.query.filter (fun kv => kv.1 == k) =
          u.query.filter (fun kv => kv.1 == k))) := by
  constructor
  · intro s hs
    unfold normalizeUrl
    rw [hs]
    rfl
  · intro s u h
    exact ⟨normCore u, normalizeUrl_eq_some h,
      parse_serializeS (normCore_wf (parse_wf h)), rfl, rfl,
      List.perm_insertionSort keyLe u.query,
      List.sorted_insertionSort keyLe u.query,
      fun k => insertionSort_filter_key k u.query⟩

/-- C6 witness: the characterization instantiated on a URL with fragment,
trailing slash and unsorted duplicate-key query. -/
theorem normalizeUrl_spec_witness :
    normalizeUrl "nourl" = none ∧
    ∃ v : UrlModel, normalizeUrl "http://a.com/b/?b=2&a=1#f" = some (serializeS v) := by
  constructor
  · exact normalizeUrl_spec.1 "nourl" (by decide)
  · obtain ⟨v, hv, _⟩ := normalizeUrl_spec.2 "http://a.com/b/?b=2&a=1#f"
      ((parseUrlS "http://a.com/b/?b=2&a=1#f").get (by decide))
      (Option.some_get (by decide)).symm
    exact ⟨v, hv⟩

/-- C7: the harvester fetch records at most 4 waits (one per retryable
attempt, `maxAttempts = 4`); a first-attempt 429/503 response makes the first
wait exactly the Retry-After-derived delay when present, else the exponential
backoff `min(30000, 1000·2^attempt)`; `parseRetryAfterMs` yields
`max 0 ⌊1000·q⌋` for a numeric header value `q` and the remaining duration
floored at 0 for a date value; concretely, a 503 with `Retry-After: 2` makes
the harvester wait 2000 ms ≥ 2000 ms before its next attempt. -/
theorem fetchXml_retry_spec :
    (∀ (env : JsEnv) (oracle : Nat → FetchResult),
      (fetchXml env oracle).2.length ≤ 4) ∧
    (∀ (env : JsEnv) (oracle : Nat → FetchResult) (status : Nat) (ct ra body : String),
      oracle 1 = .resp status ct ra body → (status = 429 ∨ status = 503) →
      (fetchXml env oracle).2.head? =
        some ((parseRetryAfterMs env ra).getD (backoffMs 1))) ∧
    (∀ (env : JsEnv) (ra : String) (q : ℚ), ra ≠ "" → env.jsNumber ra = some q →
      parseRetryAfterMs env ra = some (max 0 ⌊q * 1000⌋)) ∧
    (∀ (env : JsEnv) (ra : String) (d : Int), ra ≠ "" → env.jsNumber ra = none →
      env.dateParse ra = some d →
      parseRetryAfterMs env ra = some (max 0 (d - env.now))) ∧
    ((fetchXml retryEnv o503ra2).2.head? = some 2000 ∧ (2000 : Int) ≥ 2000) := by
  have hra2 : parseRetryAfterMs retryEnv "2" = some 2000 := by
    simp [parseRetryAfterMs, retryEnv]
    norm_num
  refine ⟨?_, ?_, ?_, ?_, ?_, by norm_num⟩
  · intro env oracle
    simpa using fetchXmlGo_waits_length env oracle [1, 2, 3, 4] none []
  · intro env oracle status ct ra body ho hst
    have hns : ¬(200 ≤ status ∧ status < 300) := by
      rcases hst with rfl | rfl <;> omega
    have hstep : fetchXml env oracle =
        fetchXmlGo env oracle [2, 3, 4] none
          ([] ++ [(parseRetryAfterMs env ra).getD (backoffMs 1)]) :=
      fetchXmlGo_cons_retryable env oracle 1 [2, 3, 4] none [] status ct ra body ho hns hst
    obtain ⟨t, ht⟩ := fetchXmlGo_waits_extend env oracle [2, 3, 4] none
      ([] ++ [(parseRetryAfterMs env ra).getD (backoffMs 1)])
    rw [hstep, ht]
    simp
  · intro env ra q hne hq
    unfold parseRetryAfterMs
    rw [if_neg hne, hq]
  · intro env ra d hne hq hd
    unfold parseRetryAfterMs
    rw [if_neg hne, hq, hd]
    show some (if d - env.now > 0 then d - env.now else 0) = some (max 0 (d - env.now))
    congr 1
    rcases le_or_lt (d - env.now) 0 with h | h
    · rw [if_neg (not_lt_of_le h), max_eq_left h]
    · rw [if_pos h, max_eq_right (le_of_lt h)]
  · have hstep : fetchXml retryEnv o503ra2 =
        fetchXmlGo retryEnv o503ra2 [2, 3, 4] none
          ([] ++ [(parseRetryAfterMs retryEnv "2").getD (backoffMs 1)]) :=
      fetchXmlGo_cons_retryable retryEnv o503ra2 1 [2, 3, 4] none [] 503 "" "2" "" rfl
        (by omega) (Or.inr rfl)
    obtain ⟨t, ht⟩ := fetchXmlGo_waits_extend retryEnv o503ra2 [2, 3, 4] none
      ([] ++ [(parseRetryAfterMs retryEnv "2").getD (backoffMs 1)])
    rw [hstep, ht, hra2]
    simp

/-- C7 witness: the first-wait formula instantiated on the concrete 503 run;
the Retry-After header "2" parses to 2000 ms. -/
theorem fetchXml_retry_spec_witness :
    (fetchXml retryEnv o503ra2).2.head? =
      some ((parseRetryAfterMs retryEnv "2").getD (backoffMs 1)) :=
  fetchXml_retry_spec.2.1 retryEnv o503ra2 503 "" "2" "" rfl (Or.inr rfl)

/-- C8: a sitemap document whose fetch fails after all retry attempts, or
whose body is malformed XML, contributes an empty URL list: `parseSitemapUrls`
returns `[]` and raises nothing to its caller. -/
theorem parseSitemapUrls_failure_empty (O : SitemapOracles) (env : JsEnv)
    (fuel : Nat) (smUrl base : String) :
    (∀ e : SmError, (fetchXml env (O.net smUrl)).1 = .error e →
      parseSitemapUrlsF O env (fuel + 1) smUrl base = .ok []) ∧
    (∀ xml : String, (fetchXml env (O.net smUrl)).1 = .ok xml → O.parseXml xml = none →
      parseSitemapUrlsF O env (fuel + 1) smUrl base = .ok []) := by
  constructor
  · intro e he
    unfold parseSitemapUrlsF
    rw [he]
  · intro xml hx hp
    unfold parseSitemapUrlsF
    simp only [hx, hp]

/-- C8 witness: a persistently failing network yields the empty contribution. -/
theorem parseSitemapUrls_failure_empty_witness :
    parseSitemapUrlsF netO retryEnv 3 "http://a.com/sitemap.xml" "http://a.com/" =
      .ok [] :=
  (parseSitemapUrls_failure_empty netO retryEnv 2 "http://a.com/sitemap.xml"
    "http://a.com/").1 SmError.network (by rfl)

/-- C4: the recursive sitemap harvester has no cycle guard: on a sitemapindex
document whose nested `loc` resolves back to the same sitemap URL, the
recursion exhausts every finite fuel budget — the reference behaviour
recurses indefinitely. -/
theorem parseSitemapUrls_cycle_diverges :
    ∀ fuel : Nat,
      parseSitemapUrlsF cycO cycEnv fuel "http://a.com/sitemap.xml" "http://a.com/" =
        .error .outOfFuel := by
  intro fuel
  induction fuel with
  | zero => rfl
  | succ n ih =>
    have hbody : parseSitemapUrlsF cycO cycEnv (n + 1) "http://a.com/sitemap.xml"
        "http://a.com/" =
        (match parseSitemapUrlsF cycO cycEnv n "http://a.com/sitemap.xml" "http://a.com/" with
          | .error e => .error e
          | .ok nested =>
            processIndexItems
              (fun u => parseSitemapUrlsF cycO cycEnv n u "http://a.com/")
              ((parseUrlS "http://a.com/").get (by decide)) "http://a.com/"
              (nested.foldl addUnique []) []) := rfl
    rw [hbody, ih]

end AccChecker
